import Mathlib

/-!
Verification development for the yaml-compare repository.

The repository's single source file `yaml-diff.py` delegates the structural
diff itself to the external `DeepDiff` library, invoked as
`DeepDiff(a, b, ignore_order=True, ignore_type_in_groups=[(str, int, float), (bool, str)])`.
Since the diff engine's code is not part of the repository, the engine
(value model, equivalence evaluator, recursive comparator, sequence
reconciliation, result classification) is modelled here from the
specification's own design (spec sections 3, 4.2, 4.3, 4.4).

The loader-side functions `extract_configmap_data` and `navigate_to_key`
are embedded directly from `src/yaml-diff.py`; file reading and the YAML
string parser are abstracted as an explicit parser parameter, since the
actual parsing is done by the external `yaml` library.
-/

/-- Modelled from the spec: the Value model (spec section 3). A value is one of
Null, Bool, Number, Text, Sequence, Mapping (ordered-insertion map from
text keys to values). Numbers are modelled as integers, which covers every
numeric scalar exercised by the claims. -/
inductive Value where
  | vnull : Value
  | vbool : Bool → Value
  | vnum : Int → Value
  | vtext : String → Value
  | vseq : List Value → Value
  | vmap : List (String × Value) → Value

/-- Modelled from the spec: scalar type tags used by the equivalence groups
(spec section 4.2). -/
inductive STag where
  | tnull | tbool | tnum | ttext
deriving DecidableEq, Repr

/-- A group configuration: a list of equivalence groups, each a set of tags. -/
abbrev Groups := List (List STag)

/-- Decimal digits of a natural number, least significant first, computed with
an explicit structural bound so that it evaluates in the kernel. -/
def natDigitsAux : Nat → Nat → List Nat
  | 0, _ => []
  | fuel + 1, n => if n = 0 then [] else n % 10 :: natDigitsAux fuel (n / 10)

/-- Decimal digits of a natural number, least significant first. -/
def natDigits (n : Nat) : List Nat := natDigitsAux n n

/-- Canonical decimal string of a natural number. -/
def canonNat (n : Nat) : String :=
  if n = 0 then "0" else String.mk (((natDigits n).reverse).map Nat.digitChar)

/-- Canonical decimal string of an integer (spec section 4.2: decimal
representation for numbers). -/
def canonInt : Int → String
  | .ofNat n => canonNat n
  | .negSucc n => "-" ++ canonNat (n + 1)

/-- Canonical string form of a scalar (spec section 4.2: decimal representation
for numbers, "true"/"false" for booleans, literal for text). -/
def canonScalar : Value → String
  | .vnull => "null"
  | .vbool b => if b then "true" else "false"
  | .vnum n => canonInt n
  | .vtext s => s
  | .vseq _ => ""
  | .vmap _ => ""

/-- Scalar type tag of a value, none for sequences and mappings. -/
def tagOf : Value → Option STag
  | .vnull => some .tnull
  | .vbool _ => some .tbool
  | .vnum _ => some .tnum
  | .vtext _ => some .ttext
  | .vseq _ => none
  | .vmap _ => none

/-- Whether two tags belong to a common configured equivalence group. -/
def inCommonGroup (G : Groups) (t u : STag) : Bool :=
  G.any (fun g => g.contains t && g.contains u)

/-- Modelled from the spec: the equivalence evaluator (spec section 4.2).
Identical scalar tags compare by underlying value; distinct scalar tags in a
common group compare by canonical string; otherwise not equal. Non-scalars
are never equal through this evaluator. -/
def scalarEqual (G : Groups) (a b : Value) : Bool :=
  match a, b with
  | .vnull, .vnull => true
  | .vbool x, .vbool y => x == y
  | .vnum x, .vnum y => x == y
  | .vtext x, .vtext y => x == y
  | a, b =>
    match tagOf a, tagOf b with
    | some t, some u =>
      if inCommonGroup G t u then canonScalar a == canonScalar b else false
    | _, _ => false

/-- Modelled from the spec: the default configuration's equivalence groups
(spec section 4.2), from the source's
`ignore_type_in_groups=[(str, int, float), (bool, str)]`:
the groups are Number-with-Text and Bool-with-Text. -/
def defaultGroups : Groups := [[.tnum, .ttext], [.tbool, .ttext]]

/-- Remove the first element of the list that the predicate relates to `x`,
returning the remaining list, or none when no element is related. -/
def removeFirst (r : α → α → Bool) (x : α) : List α → Option (List α)
  | [] => none
  | y :: ys => if r x y then some ys else (removeFirst r x ys).map (y :: ·)

/-- Modelled from the spec: sequence reconciliation (spec section 4.3):
repeatedly match the first remaining old element with the first related
remaining new element, removing both; return both residual lists
(unmatched old elements, unmatched new elements). -/
def greedy (r : α → α → Bool) : List α → List α → List α × List α
  | [], ys => ([], ys)
  | x :: xs, ys =>
    match removeFirst r x ys with
    | some ys' => greedy r xs ys'
    | none => let p := greedy r xs ys; (x :: p.1, p.2)

/-- First value bound to a key in an association list. -/
def lookupV (k : String) : List (String × Value) → Option Value
  | [] => none
  | (k', v) :: rest => if k' = k then some v else lookupV k rest

/-- Whether a key occurs in an association list. -/
def hasKey (k : String) (xs : List (String × Value)) : Bool :=
  xs.any (fun p => p.1 == k)

mutual

/-- Modelled from the spec: deep semantic equality of two values — precisely
the condition under which the comparison of the two values produces an empty
DiffResult (proved below as `compare_nil_iff`). Mappings are equal when
they have the same keys and pairwise equal values; sequences when the greedy
multiset reconciliation leaves no residue; scalars via the equivalence
evaluator; differing shapes are never equal. -/
def veq (G : Groups) : Value → Value → Bool
  | .vmap xs, .vmap ys => mapSub G xs ys && ys.all (fun p => hasKey p.1 xs)
  | .vseq xs, .vseq ys => veqSeq G xs ys
  | a, b => scalarEqual G a b

/-- Whether every binding of the first association list has its key bound in
the second to a deeply equal value. -/
def mapSub (G : Groups) : List (String × Value) → List (String × Value) → Bool
  | [], _ => true
  | (k, v) :: rest, ys =>
    (match lookupV k ys with
     | some w => veq G v w
     | none => false) && mapSub G rest ys

/-- Whether greedy reconciliation fully matches the two element lists. -/
def veqSeq (G : Groups) : List Value → List Value → Bool
  | [], ys => ys.isEmpty
  | x :: xs, ys =>
    match veqRem G x ys with
    | some ys' => veqSeq G xs ys'
    | none => false

/-- Remove the first deeply equal element, as `removeFirst (veq G)`. -/
def veqRem (G : Groups) (x : Value) : List Value → Option (List Value)
  | [] => none
  | y :: ys => if veq G x y then some ys else (veqRem G x ys).map (y :: ·)

end

/-- Path to a located value: the list of map keys from the root
(spec section 3; sequence elements are addressed at the sequence's own path). -/
abbrev DPath := List String

/-- Modelled from the spec: one discovered difference (spec section 3):
a path, a kind, and the associated old/new values. -/
inductive DiffEntry where
  | changed : DPath → Value → Value → DiffEntry
  | removedKey : DPath → Value → DiffEntry
  | addedKey : DPath → Value → DiffEntry
  | removedListItem : DPath → Value → DiffEntry
  | addedListItem : DPath → Value → DiffEntry

/-- RemovedKey entries for keys present in the first mapping only. -/
def removedKeys (p : DPath) (xs ys : List (String × Value)) : List DiffEntry :=
  xs.filterMap (fun kv =>
    if hasKey kv.1 ys then none else some (.removedKey (p ++ [kv.1]) kv.2))

/-- AddedKey entries for keys present in the second mapping only. -/
def addedKeys (p : DPath) (xs ys : List (String × Value)) : List DiffEntry :=
  ys.filterMap (fun kv =>
    if hasKey kv.1 xs then none else some (.addedKey (p ++ [kv.1]) kv.2))

mutual

/-- Modelled from the spec: the structural diff engine's public operation
`compare(old, new)` at a starting path (spec section 4.3). Mappings recurse
on common keys and emit RemovedKey/AddedKey entries for one-sided keys;
sequences are reconciled as multisets, residual elements becoming
RemovedListItem/AddedListItem entries at the sequence's path; scalar pairs go
through the equivalence evaluator; any other shape pairing is a single
Changed entry carrying both whole values. -/
def compareValue (G : Groups) (p : DPath) : Value → Value → List DiffEntry
  | .vmap xs, .vmap ys =>
    compareCommon G p xs ys ++ removedKeys p xs ys ++ addedKeys p xs ys
  | .vseq xs, .vseq ys =>
    let res := greedy (veq G) xs ys
    res.1.map (fun v => .removedListItem p v) ++
      res.2.map (fun v => .addedListItem p v)
  | a, b => if scalarEqual G a b then [] else [.changed p a b]

/-- Entries contributed by the keys of the first mapping that are bound in the
second, each by recursive comparison at the extended path. -/
def compareCommon (G : Groups) (p : DPath) :
    List (String × Value) → List (String × Value) → List DiffEntry
  | [], _ => []
  | (k, v) :: rest, ys =>
    (match lookupV k ys with
     | some w => compareValue G (p ++ [k]) v w
     | none => []) ++ compareCommon G p rest ys

end

/-- Modelled from the spec: the classifier's named buckets (spec section 4.4). -/
structure DiffResult where
  changed : List DiffEntry
  removedKeysB : List DiffEntry
  addedKeysB : List DiffEntry
  removedListItems : List DiffEntry
  addedListItems : List DiffEntry

/-- Whether an entry is a Changed entry. -/
def DiffEntry.isChanged : DiffEntry → Bool
  | .changed _ _ _ => true
  | _ => false

/-- Whether an entry is a RemovedKey entry. -/
def DiffEntry.isRemovedKey : DiffEntry → Bool
  | .removedKey _ _ => true
  | _ => false

/-- Whether an entry is an AddedKey entry. -/
def DiffEntry.isAddedKey : DiffEntry → Bool
  | .addedKey _ _ => true
  | _ => false

/-- Whether an entry is a RemovedListItem entry. -/
def DiffEntry.isRemovedListItem : DiffEntry → Bool
  | .removedListItem _ _ => true
  | _ => false

/-- Whether an entry is an AddedListItem entry. -/
def DiffEntry.isAddedListItem : DiffEntry → Bool
  | .addedListItem _ _ => true
  | _ => false

/-- Modelled from the spec: the diff result classifier (spec section 4.4),
restructuring the engine's entry stream into buckets keyed by kind,
preserving discovery order within each bucket. -/
def classify (es : List DiffEntry) : DiffResult where
  changed := es.filter DiffEntry.isChanged
  removedKeysB := es.filter DiffEntry.isRemovedKey
  addedKeysB := es.filter DiffEntry.isAddedKey
  removedListItems := es.filter DiffEntry.isRemovedListItem
  addedListItems := es.filter DiffEntry.isAddedListItem

/-- Total number of classified entries. -/
def DiffResult.total (d : DiffResult) : Nat :=
  d.changed.length + d.removedKeysB.length + d.addedKeysB.length +
    d.removedListItems.length + d.addedListItems.length

/-- Whether a classified result is empty, signifying semantic equality. -/
def DiffResult.isEmptyB (d : DiffResult) : Bool :=
  d.changed.isEmpty && d.removedKeysB.isEmpty && d.addedKeysB.isEmpty &&
    d.removedListItems.isEmpty && d.addedListItems.isEmpty

mutual

/-- Well-formedness of a value: every mapping in the tree has pairwise
distinct keys (as YAML mappings do). -/
def wfB : Value → Bool
  | .vmap xs => nodupKeysB xs && wfMapB xs
  | .vseq xs => wfListB xs
  | _ => true

/-- Key distinctness of an association list. -/
def nodupKeysB : List (String × Value) → Bool
  | [] => true
  | (k, _) :: rest => !(hasKey k rest) && nodupKeysB rest

/-- Well-formedness of every value of an association list. -/
def wfMapB : List (String × Value) → Bool
  | [] => true
  | (_, v) :: rest => wfB v && wfMapB rest

/-- Well-formedness of every element of a list. -/
def wfListB : List Value → Bool
  | [] => true
  | x :: xs => wfB x && wfListB xs

end

/-- Strict navigation of a dot-path: the sub-tree reached by following each
key through nested mappings, or none when some segment is absent at its level
or the current value is not a mapping. -/
def resolvePath : Value → List String → Option Value
  | v, [] => some v
  | .vmap m, k :: ks =>
    match lookupV k m with
    | some v => resolvePath v ks
    | none => none
  | _, _ :: _ => none

/-- Split a character list on a separator character, Python str.split
semantics: separators delimit (possibly empty) fields, and the empty input
gives one empty field. -/
def splitOnCharAux (c : Char) : List Char → List Char → List (List Char)
  | acc, [] => [acc.reverse]
  | acc, a :: as =>
    if a = c then acc.reverse :: splitOnCharAux c [] as
    else splitOnCharAux c (a :: acc) as

/-- Split a string on dots, modelling Python's `key_path.split('.')`. -/
def splitDot (s : String) : List String :=
  (splitOnCharAux '.' [] s.data).map String.mk

/-- Embedded from src/yaml-diff.py, navigate_to_key's loop: walk the key list
from `current`, descending while the current value is a mapping binding the
key, and falling back to the original tree `orig` otherwise. -/
def navGo (orig : Value) : Value → List String → Value
  | current, [] => current
  | current, k :: ks =>
    match current with
    | .vmap m =>
      match lookupV k m with
      | some v => navGo orig v ks
      | none => orig
    | _ => orig

/-- Embedded from src/yaml-diff.py lines 55-68: navigate to a nested key using
dot notation. A missing or empty key path (Python falsiness) returns the tree
unchanged; otherwise the path is split on dots and walked, returning the
original tree when a segment is not found (the source also prints a warning,
which carries no data flow). -/
def navigate_to_key (data : Value) (key_path : Option String) : Value :=
  match key_path with
  | none => data
  | some s => if s = "" then data else navGo data data (splitDot s)

/-- Python truthiness of a value: None, False, 0, empty text, empty sequence
and empty mapping are falsy. -/
def truthy : Value → Bool
  | .vnull => false
  | .vbool b => b
  | .vnum n => n != 0
  | .vtext s => !(s == "")
  | .vseq l => !l.isEmpty
  | .vmap m => !m.isEmpty

/-- Abstraction of the external YAML library: `loadAll` models
`yaml.safe_load_all` on a whole file's content (an exception is an error
result), and `loadOne` models `yaml.safe_load` on one embedded string
payload. -/
structure YamlIO where
  loadAll : String → Except String (List Value)
  loadOne : String → Except String Value

/-- Embedded from src/yaml-diff.py lines 28-33: find the first truthy document
whose "kind" key equals "ConfigMap" and return its "data" field: the bound
value itself when the key is present (a null value included, since
`doc.get('data', {})` only falls back to the empty-mapping default when the
key is absent); none when no document matches. Calling `.get` on a truthy
non-mapping document raises in Python, modelled as an error result. -/
def findConfigMapData : List Value → Except String (Option Value)
  | [] => .ok none
  | d :: ds =>
    if truthy d then
      match d with
      | .vmap m =>
        match lookupV "kind" m with
        | some (.vtext s) =>
          if s = "ConfigMap" then
            .ok (some (match lookupV "data" m with
                       | none => .vmap []
                       | some v => v))
          else findConfigMapData ds
        | _ => findConfigMapData ds
      | _ => .error "AttributeError"
    else findConfigMapData ds

/-- Python dict assignment semantics: replace the value of an existing key in
place, otherwise append the binding. -/
def setKey : List (String × Value) → String → Value → List (String × Value)
  | [], k, v => [(k, v)]
  | (k', v') :: rest, k, v =>
    if k' = k then (k', v) :: rest else (k', v') :: setKey rest k v

/-- Python dict.update semantics: fold the new bindings over the accumulator,
later bindings overwriting earlier ones. -/
def dictUpdate (acc m : List (String × Value)) : List (String × Value) :=
  m.foldl (fun a kv => setKey a kv.1 kv.2) acc

/-- Whether the first character list is an initial segment of the second. -/
def startsWithL : List Char → List Char → Bool
  | [], _ => true
  | _ :: _, [] => false
  | a :: as, b :: bs => a == b && startsWithL as bs

/-- Whether the first character list occurs contiguously inside the second,
modelling Python's `in` operator on strings. -/
def substrL (n : List Char) : List Char → Bool
  | [] => startsWithL n []
  | h :: t => startsWithL n (h :: t) || substrL n t

/-- Whether the loop body of the ConfigMap branch skips a data entry:
a truthy config_key that is not a substring of the entry's key. -/
def cfgSkip (config_key : Option String) (key : String) : Bool :=
  match config_key with
  | none => false
  | some c => if c = "" then false else !(substrL c.data key.data)

/-- Python `dict.update` over an iterable of key/value pairs, as
`result.update(parsed)` behaves when `parsed` is a sequence: elements are
consumed left to right and each must convert to a 2-element sequence —
a 2-element list gives a key/value pair (an unhashable list or dict key
raises TypeError), a string of exactly two characters gives a
character/character pair, a mapping of exactly two entries gives its two
keys as the pair, and anything else raises (wrong length is ValueError,
a non-sequence element TypeError). An exception leaves the bindings merged
so far in place, matching the partial mutation the source's `except: pass`
then swallows. A 2-element list whose key is a hashable non-text scalar
merges in Python under that non-text key, which the Text-keyed Mapping of
the value model cannot represent: the model keeps consuming the later
elements (as Python does, no exception being raised) and omits only that
unrepresentable binding. -/
def updatePairs (acc : List (String × Value)) : List Value → List (String × Value)
  | [] => acc
  | e :: rest =>
    match e with
    | .vtext s =>
      match s.data with
      | [c1, c2] =>
        updatePairs (setKey acc (String.mk [c1]) (.vtext (String.mk [c2]))) rest
      | _ => acc
    | .vseq [k, v] =>
      match k with
      | .vtext ks => updatePairs (setKey acc ks v) rest
      | .vseq _ => acc
      | .vmap _ => acc
      | _ => updatePairs acc rest
    | .vseq _ => acc
    | .vmap [(k1, _), (k2, _)] => updatePairs (setKey acc k1 (.vtext k2)) rest
    | .vmap _ => acc
    | _ => acc

/-- Embedded from src/yaml-diff.py lines 40-50, the body of the loop over the
ConfigMap's data entries: entries whose key fails the substring filter are
skipped; string payloads are parsed with safe_load, a parse failure or any
failure inside `result.update` being swallowed by the bare `except: pass`.
A payload parsing to a truthy mapping is merged whole; one parsing to a
truthy sequence is merged as an iterable of key/value pairs (possibly
partially, when some element raises); a truthy scalar payload makes
`result.update` raise before merging anything (a string's one-character
elements have the wrong length, other scalars are not iterable), so it
contributes nothing; non-string data values are skipped by the isinstance
check. -/
def mergeStep (P : YamlIO) (config_key : Option String)
    (acc : List (String × Value)) (kv : String × Value) : List (String × Value) :=
  if cfgSkip config_key kv.1 then acc
  else
    match kv.2 with
    | .vtext s =>
      match P.loadOne s with
      | .error _ => acc
      | .ok parsed =>
        if truthy parsed then
          match parsed with
          | .vmap m => dictUpdate acc m
          | .vseq items => updatePairs acc items
          | _ => acc
        else acc
    | _ => acc

/-- Embedded from src/yaml-diff.py lines 19-53: extract data from a ConfigMap,
optionally from a specific config and starting key. File reading is abstracted
into the `content` argument and the YAML library into `P`. A failure of
`loadAll` propagates (nothing catches it). The `data` variable is None both
when no ConfigMap document is found and when the found ConfigMap's data value
is null (the source's `if data is None:` check at line 35): in either case
the first document (default: empty mapping) is navigated directly. Otherwise
the ConfigMap's data entries are filtered, parsed and merged, and the merged
mapping is navigated. Iterating a truthy-or-falsy non-null non-mapping data
field (`data.items()`) raises in Python, modelled as an error result. -/
def extract_configmap_data (P : YamlIO) (content : String)
    (config_key start_key : Option String) : Except String Value :=
  match P.loadAll content with
  | .error e => .error e
  | .ok docs =>
    match findConfigMapData docs with
    | .error e => .error e
    | .ok none => .ok (navigate_to_key (docs.headD (.vmap [])) start_key)
    | .ok (some dat) =>
      match dat with
      | .vnull => .ok (navigate_to_key (docs.headD (.vmap [])) start_key)
      | .vmap entries =>
        .ok (navigate_to_key (.vmap (entries.foldl (mergeStep P config_key) []))
              start_key)
      | _ => .error "AttributeError"

/-- Embedded from src/yaml-diff.py's main block: extract both trees (any
extraction failure aborts, since nothing catches it) and only then run the
diff engine on them, classifying its entries. -/
def runCompare (P : YamlIO) (content1 content2 : String)
    (ck1 ck2 sk : Option String) : Except String DiffResult := do
  let a ← extract_configmap_data P content1 ck1 sk
  let b ← extract_configmap_data P content2 ck2 sk
  pure (classify (compareValue defaultGroups [] a b))

/-- Role swap of a diff entry, exchanging the old and new sides: a Changed
entry swaps its two values, removals become additions and conversely. -/
def swapEntry : DiffEntry → DiffEntry
  | .changed p o n => .changed p n o
  | .removedKey p v => .addedKey p v
  | .addedKey p v => .removedKey p v
  | .removedListItem p v => .addedListItem p v
  | .addedListItem p v => .removedListItem p v

/-- Concrete parser fixture: one ConfigMap document with three data entries
whose payloads "p1", "p2", "p3" parse to small mappings. -/
def testParser : YamlIO where
  loadAll _ := .ok [.vmap [("kind", .vtext "ConfigMap"),
    ("data", .vmap [("app-config", .vtext "p1"),
                    ("app-config-prod", .vtext "p2"),
                    ("other", .vtext "p3")])]]
  loadOne s :=
    if s = "p1" then .ok (.vmap [("a", .vnum 1), ("b", .vnum 2)])
    else if s = "p2" then .ok (.vmap [("b", .vnum 9), ("c", .vnum 3)])
    else if s = "p3" then .ok (.vmap [("z", .vnum 7)])
    else .error "ParserError"

/-- Concrete parser fixture: the same ConfigMap shape, but the payload "p2"
is malformed and fails to parse. -/
def badPayloadParser : YamlIO where
  loadAll _ := .ok [.vmap [("kind", .vtext "ConfigMap"),
    ("data", .vmap [("app-config", .vtext "p1"),
                    ("app-config-prod", .vtext "p2")])]]
  loadOne s :=
    if s = "p1" then .ok (.vmap [("a", .vnum 1), ("b", .vnum 2)])
    else .error "boom"

/-- Concrete parser fixture: loading the whole document fails. -/
def failAllParser : YamlIO where
  loadAll _ := .error "ScannerError"
  loadOne _ := .error "ScannerError"

/-- Concrete parser fixture: a ConfigMap document whose data value is
explicitly null. -/
def nullDataParser : YamlIO where
  loadAll _ := .ok [.vmap [("kind", .vtext "ConfigMap"), ("data", .vnull)]]
  loadOne _ := .error "ParserError"

/-- Concrete parser fixture: a ConfigMap whose payloads parse to sequences of
key/value pairs rather than mappings; "p5" has a trailing non-pair element. -/
def pairParser : YamlIO where
  loadAll _ := .ok [.vmap [("kind", .vtext "ConfigMap"),
    ("data", .vmap [("app-config", .vtext "p4"),
                    ("app-config-two", .vtext "p5")])]]
  loadOne s :=
    if s = "p4" then .ok (.vseq [.vseq [.vtext "d", .vnum 4], .vtext "ef"])
    else if s = "p5" then .ok (.vseq [.vseq [.vtext "g", .vnum 7], .vnum 9])
    else .error "ParserError"

/-! ## Theorems -/

/-- Claim C1: under the default equivalence configuration,
comparing {"port": 8080} with {"port": "8080"} yields an empty result;
comparing {"port": 8080} with {"port": "9090"} yields exactly one Changed
entry at path "port" carrying old value 8080 and new value "9090"; and a
number-vs-text scalar pair compares equal exactly when the number's
canonical decimal string equals the text. -/
theorem C1_equivalence_group_tolerance :
    compareValue defaultGroups [] (.vmap [("port", .vnum 8080)])
        (.vmap [("port", .vtext "8080")]) = [] ∧
    compareValue defaultGroups [] (.vmap [("port", .vnum 8080)])
        (.vmap [("port", .vtext "9090")]) =
      [.changed ["port"] (.vnum 8080) (.vtext "9090")] ∧
    ∀ (n : Int) (s : String),
      scalarEqual defaultGroups (.vnum n) (.vtext s) = (canonInt n == s) := by
  refine ⟨?_, ?_, ?_⟩
  · simp [compareValue, compareCommon, removedKeys, addedKeys, lookupV, hasKey,
      scalarEqual, tagOf, inCommonGroup, defaultGroups, canonScalar, canonInt,
      canonNat, natDigits, natDigitsAux, Nat.digitChar]
  · simp [compareValue, compareCommon, removedKeys, addedKeys, lookupV, hasKey,
      scalarEqual, tagOf, inCommonGroup, defaultGroups, canonScalar, canonInt,
      canonNat, natDigits, natDigitsAux, Nat.digitChar]
  · intro n s
    simp [scalarEqual, tagOf, inCommonGroup, defaultGroups, canonScalar]

/-- Claim C2: sequence reconciliation has multiset semantics respecting
duplicate counts: comparing {"items": [1,2,2,3]} with {"items": [2,3,3]}
yields exactly one RemovedListItem 1, one RemovedListItem 2 (one duplicate 2
stays unmatched) and one AddedListItem 3, each matched pair being removed
once from each working list. -/
theorem C2_sequence_multiset_diff :
    compareValue defaultGroups []
        (.vmap [("items", .vseq [.vnum 1, .vnum 2, .vnum 2, .vnum 3])])
        (.vmap [("items", .vseq [.vnum 2, .vnum 3, .vnum 3])]) =
      [.removedListItem ["items"] (.vnum 1), .removedListItem ["items"] (.vnum 2),
       .addedListItem ["items"] (.vnum 3)] := by
  simp [compareValue, compareCommon, removedKeys, addedKeys, lookupV, hasKey,
    greedy, removeFirst, veq, scalarEqual, tagOf, inCommonGroup, defaultGroups,
    canonScalar, canonInt, canonNat, natDigits, natDigitsAux, Nat.digitChar]

/-- Claim C3: a shape mismatch (a mapping on one side, a sequence on the
other) produces exactly one Changed entry at that path carrying both whole
values, with no recursion into the mismatched shapes, and the classifier
puts it in the changed bucket alone. -/
theorem C3_shape_mismatch_single_changed :
    compareValue defaultGroups [] (.vmap [("x", .vmap [("y", .vnum 1)])])
        (.vmap [("x", .vseq [.vnum 1])]) =
      [.changed ["x"] (.vmap [("y", .vnum 1)]) (.vseq [.vnum 1])] ∧
    classify (compareValue defaultGroups [] (.vmap [("x", .vmap [("y", .vnum 1)])])
        (.vmap [("x", .vseq [.vnum 1])])) =
      ⟨[.changed ["x"] (.vmap [("y", .vnum 1)]) (.vseq [.vnum 1])], [], [], [], []⟩ := by
  constructor
  · simp [compareValue, compareCommon, removedKeys, addedKeys, lookupV, hasKey,
      scalarEqual, tagOf]
  · simp [compareValue, compareCommon, removedKeys, addedKeys, lookupV, hasKey,
      scalarEqual, tagOf, classify, DiffEntry.isChanged, DiffEntry.isRemovedKey,
      DiffEntry.isAddedKey, DiffEntry.isRemovedListItem, DiffEntry.isAddedListItem]

/-- Claim C7: under the default configuration's groups, a Number is never
equal to a Bool (no transitive grouping across the disjoint groups), and
comparing the number 8080 to the boolean true yields one Changed entry,
even though each of them is equal to a corresponding Text value. -/
theorem C7_no_transitive_grouping :
    (∀ (n : Int) (b : Bool), scalarEqual defaultGroups (.vnum n) (.vbool b) = false) ∧
    compareValue defaultGroups [] (.vnum 8080) (.vbool true) =
      [.changed [] (.vnum 8080) (.vbool true)] ∧
    scalarEqual defaultGroups (.vnum 8080) (.vtext "8080") = true ∧
    scalarEqual defaultGroups (.vbool true) (.vtext "true") = true := by
  refine ⟨?_, ?_, ?_, ?_⟩
  · intro n b
    simp [scalarEqual, tagOf, inCommonGroup, defaultGroups]
  · simp [compareValue, scalarEqual, tagOf, inCommonGroup, defaultGroups]
  · simp [scalarEqual, tagOf, inCommonGroup, defaultGroups, canonScalar, canonInt,
      canonNat, natDigits, natDigitsAux, Nat.digitChar]
  · simp [scalarEqual, tagOf, inCommonGroup, defaultGroups, canonScalar]

/-- Helper: the navigation loop returns the strictly resolved sub-tree when
every segment resolves, and the original tree otherwise. -/
theorem navGo_eq_resolvePath (orig : Value) (cur : Value) (ks : List String) :
    navGo orig cur ks = (resolvePath cur ks).getD orig := by
  induction ks generalizing cur with
  | nil => simp [navGo, resolvePath]
  | cons k ks ih =>
    cases cur with
    | vmap m =>
      cases h : lookupV k m with
      | none => simp [navGo, resolvePath, h]
      | some v => simp [navGo, resolvePath, h, ih]
    | vnull => simp [navGo, resolvePath]
    | vbool b => simp [navGo, resolvePath]
    | vnum n => simp [navGo, resolvePath]
    | vtext s => simp [navGo, resolvePath]
    | vseq l => simp [navGo, resolvePath]

/-- Claim C8: navigation fallback is non-fatal: a missing or empty key path
returns the tree unchanged, and a non-empty dot-path returns the strictly
resolved sub-tree when every segment resolves and the original un-navigated
tree unchanged when any segment is absent at its level (the `Option.getD`
collapses precisely these two cases). -/
theorem C8_navigation_fallback :
    (∀ (data : Value), navigate_to_key data none = data) ∧
    (∀ (data : Value) (s : String),
      navigate_to_key data (some s) =
        if s = "" then data else (resolvePath data (splitDot s)).getD data) := by
  constructor
  · intro data
    simp [navigate_to_key]
  · intro data s
    by_cases h : s = "" <;> simp [navigate_to_key, h, navGo_eq_resolvePath]

/-- Claim C10: with a config_key and a ConfigMap document,
extract_configmap_data selects every data entry whose key contains the
config_key as a substring (here "app-config" selects both "app-config" and
"app-config-prod", and "other" is not selected although its payload parses),
parses each selected payload and merges the parsed payloads with later
entries overwriting earlier ones on key collision (b becomes 9), all before
dot-path navigation (navigating to "b" yields the merged value); payloads
parsing to sequences of key/value pairs also merge, a trailing non-pair
element leaving the bindings merged before it in place; and an entry whose
key does not contain the config_key never contributes. -/
theorem C10_substring_selection_and_merge :
    extract_configmap_data testParser "f" (some "app-config") none =
      .ok (.vmap [("a", .vnum 1), ("b", .vnum 9), ("c", .vnum 3)]) ∧
    extract_configmap_data testParser "f" (some "config") none =
      .ok (.vmap [("a", .vnum 1), ("b", .vnum 9), ("c", .vnum 3)]) ∧
    extract_configmap_data testParser "f" (some "config") (some "b") =
      .ok (.vnum 9) ∧
    extract_configmap_data pairParser "f" (some "config") none =
      .ok (.vmap [("d", .vnum 4), ("e", .vtext "f"), ("g", .vnum 7)]) ∧
    ∀ (P : YamlIO) (c k : String) (v : Value) (acc : List (String × Value)),
      c ≠ "" → substrL c.data k.data = false →
        mergeStep P (some c) acc (k, v) = acc := by
  refine ⟨rfl, rfl, rfl, rfl, ?_⟩
  intro P c k v acc hc hsub
  simp [mergeStep, cfgSkip, hc, hsub]

/-- Witness for C10 at concrete inputs: the unselected entry "other"
contributes nothing under config_key "q". -/
theorem C10_substring_selection_and_merge_witness :
    mergeStep testParser (some "q") [] ("other", .vtext "p3") = [] :=
  C10_substring_selection_and_merge.2.2.2.2 testParser "q" "other" (.vtext "p3") []
    (by decide) (by decide)

/-- Counterexample to claim C9 as stated: a malformed embedded ConfigMap
payload is a construction failure ("p2" fails to parse, within the cited
lines 19-53), yet it is not surfaced: the bare `except: pass` swallows it,
extraction succeeds with a partial tree missing the failed payload's data,
and the comparison proceeds and produces a DiffResult. -/
theorem C9_counterexample :
    badPayloadParser.loadOne "p2" = .error "boom" ∧
    extract_configmap_data badPayloadParser "f" (some "config") none =
      .ok (.vmap [("a", .vnum 1), ("b", .vnum 2)]) ∧
    runCompare badPayloadParser "f" "f" (some "config") (some "config") none =
      .ok ⟨[], [], [], [], []⟩ := by
  refine ⟨rfl, rfl, ?_⟩
  simp [runCompare, extract_configmap_data, badPayloadParser, findConfigMapData,
    truthy, lookupV, mergeStep, cfgSkip, substrL, startsWithL, dictUpdate, setKey,
    navigate_to_key, compareValue, compareCommon, removedKeys, addedKeys, hasKey,
    scalarEqual, classify, DiffEntry.isChanged, DiffEntry.isRemovedKey,
    DiffEntry.isAddedKey, DiffEntry.isRemovedListItem, DiffEntry.isAddedListItem,
    Bind.bind, Except.bind, Functor.map, Except.map, pure, Except.pure]

/-- Claim C9 as amended: a failure to load a document (the `yaml.safe_load_all`
call) is fatal and propagates to the caller, so no DiffResult at all is
produced; but a malformed embedded string payload inside a ConfigMap's data is
silently skipped by the bare `except: pass`, and extraction proceeds with
the remaining payloads, so the comparison can run on a partial tree; and a
ConfigMap whose data value is null is not an error either — the
`if data is None:` check falls back to navigating the first document. -/
theorem C9_construction_failure :
    (∀ (P : YamlIO) (c1 c2 : String) (ck1 ck2 sk : Option String) (e : String),
      P.loadAll c1 = .error e → runCompare P c1 c2 ck1 ck2 sk = .error e) ∧
    (∀ (P : YamlIO) (c1 c2 : String) (ck1 ck2 sk : Option String) (e : String)
      (a : Value), P.loadAll c1 = .ok [a] → truthy a = false →
        P.loadAll c2 = .error e → runCompare P c1 c2 ck1 ck2 sk = .error e) ∧
    (badPayloadParser.loadOne "p2" = .error "boom" ∧
     extract_configmap_data badPayloadParser "f" (some "config") none =
       .ok (.vmap [("a", .vnum 1), ("b", .vnum 2)])) ∧
    extract_configmap_data nullDataParser "f" (some "config") none =
      .ok (.vmap [("kind", .vtext "ConfigMap"), ("data", .vnull)]) := by
  refine ⟨?_, ?_, ⟨rfl, rfl⟩, rfl⟩
  · intro P c1 c2 ck1 ck2 sk e h
    simp [runCompare, extract_configmap_data, h, Bind.bind, Except.bind]
  · intro P c1 c2 ck1 ck2 sk e a h1 ht h2
    simp [runCompare, extract_configmap_data, h1, h2, findConfigMapData, ht,
      Bind.bind, Except.bind, Functor.map, Except.map]

/-- Witness for C9 at concrete inputs: a document-level load failure aborts
the whole comparison with the loader's error. -/
theorem C9_construction_failure_witness :
    runCompare failAllParser "x" "y" none none none = .error "ScannerError" :=
  C9_construction_failure.1 failAllParser "x" "y" none none none "ScannerError" rfl

/-! ### Generic lemmas about the greedy multiset reconciliation -/

/-- Helper: removal fails exactly when no element is related. -/
theorem removeFirst_eq_none_iff (r : α → α → Bool) (x : α) (ys : List α) :
    removeFirst r x ys = none ↔ ∀ y ∈ ys, r x y = false := by
  induction ys with
  | nil => simp [removeFirst]
  | cons y ys ih =>
    by_cases h : r x y = true
    · simp [removeFirst, h]
    · simp only [Bool.not_eq_true] at h
      simp [removeFirst, h, ih]

theorem removeFirst_eq_some (r : α → α → Bool) (x : α) :
    ∀ (ys ys' : List α), removeFirst r x ys = some ys' →
      ∃ p y q, ys = p ++ y :: q ∧ ys' = p ++ q ∧ r x y = true ∧
        ∀ z ∈ p, r x z = false := by
  intro ys
  induction ys with
  | nil => intro ys' h; simp [removeFirst] at h
  | cons y ys ih =>
    intro ys' h
    by_cases hr : r x y = true
    · simp [removeFirst, hr] at h
      exact ⟨[], y, ys, by simp, by simp [h.symm], hr, by simp⟩
    · simp only [Bool.not_eq_true] at hr
      simp [removeFirst, hr] at h
      obtain ⟨zs, hz, hz'⟩ := h
      obtain ⟨p, y', q, h1, h2, h3, h4⟩ := ih zs hz
      refine ⟨y :: p, y', q, by simp [h1], by simp [← hz', h2], h3, ?_⟩
      intro z hzp
      rcases List.mem_cons.mp hzp with h | h
      · exact h ▸ hr
      · exact h4 z h

theorem greedy_nil_right (r : α → α → Bool) (xs : List α) :
    greedy r xs [] = (xs, []) := by
  induction xs with
  | nil => simp [greedy]
  | cons x xs ih => simp [greedy, removeFirst, ih]

theorem greedy_skip (r : α → α → Bool) (x : α) :
    ∀ (ys zs : List α), (∀ y ∈ ys, r y x = false) →
      greedy r ys (x :: zs) = ((greedy r ys zs).1, x :: (greedy r ys zs).2) := by
  intro ys
  induction ys with
  | nil => intro zs h; simp [greedy]
  | cons y ys ih =>
    intro zs h
    have hyx : r y x = false := h y (by simp)
    have hrest : ∀ y' ∈ ys, r y' x = false := fun y' hy' => h y' (by simp [hy'])
    cases hrem : removeFirst r y zs with
    | none =>
      have : removeFirst r y (x :: zs) = none := by
        simp [removeFirst, hyx, hrem]
      simp [greedy, this, hrem, ih zs hrest]
    | some zs' =>
      have : removeFirst r y (x :: zs) = some (x :: zs') := by
        simp [removeFirst, hyx, hrem]
      simp [greedy, this, hrem, ih zs' hrest]

theorem greedy_block (r : α → α → Bool) (x y0 : α) (q : List α)
    (hy : r y0 x = true) :
    ∀ (p xs1 : List α), (∀ z ∈ p, r z x = false) →
      greedy r (p ++ y0 :: q) (x :: xs1) = greedy r (p ++ q) xs1 := by
  intro p
  induction p with
  | nil =>
    intro xs1 _
    simp [greedy, removeFirst, hy]
  | cons z p ih =>
    intro xs1 hp
    have hzx : r z x = false := hp z (by simp)
    have hrest : ∀ w ∈ p, r w x = false := fun w hw => hp w (by simp [hw])
    cases hrem : removeFirst r z xs1 with
    | none =>
      have h1 : removeFirst r z (x :: xs1) = none := by
        simp [removeFirst, hzx, hrem]
      simp only [List.cons_append, greedy, h1, hrem, List.append_eq]
      rw [ih xs1 hrest]
    | some xs2 =>
      have h1 : removeFirst r z (x :: xs1) = some (x :: xs2) := by
        simp [removeFirst, hzx, hrem]
      simp only [List.cons_append, greedy, h1, hrem, List.append_eq]
      exact ih xs2 hrest

theorem greedy_swap (r : α → α → Bool) :
    ∀ (xs ys : List α), (∀ a ∈ xs, ∀ b ∈ ys, r a b = r b a) →
      greedy r ys xs = ((greedy r xs ys).2, (greedy r xs ys).1) := by
  intro xs
  induction xs with
  | nil => intro ys _; simp [greedy, greedy_nil_right]
  | cons x xs ih =>
    intro ys hsym
    have hsym' : ∀ a ∈ xs, ∀ b ∈ ys, r a b = r b a := fun a ha b hb =>
      hsym a (by simp [ha]) b hb
    cases hrem : removeFirst r x ys with
    | none =>
      have hnone : ∀ y ∈ ys, r x y = false :=
        (removeFirst_eq_none_iff r x ys).mp hrem
      have hnone' : ∀ y ∈ ys, r y x = false := fun y hy => by
        rw [← hsym x (by simp) y hy]; exact hnone y hy
      rw [greedy_skip r x ys xs hnone', ih ys hsym']
      simp [greedy, hrem]
    | some ys' =>
      obtain ⟨p, y0, q, hys, hys', hr, hfirst⟩ := removeFirst_eq_some r x ys ys' hrem
      have hy0x : r y0 x = true := by
        rw [← hsym x (by simp) y0 (by simp [hys])]; exact hr
      have hp : ∀ z ∈ p, r z x = false := by
        intro z hz
        rw [← hsym x (by simp) z (by rw [hys]; simp [hz])]
        exact hfirst z hz
      have hsub : ∀ a ∈ xs, ∀ b ∈ ys', r a b = r b a := by
        intro a ha b hb
        refine hsym' a ha b ?_
        rw [hys]; rw [hys'] at hb
        rcases List.mem_append.mp hb with h | h
        · simp [h]
        · simp [h]
      calc greedy r ys (x :: xs) = greedy r (p ++ y0 :: q) (x :: xs) := by rw [hys]
        _ = greedy r (p ++ q) xs := greedy_block r x y0 q hy0x p xs hp
        _ = greedy r ys' xs := by rw [hys']
        _ = ((greedy r xs ys').2, (greedy r xs ys').1) := ih ys' hsub
        _ = ((greedy r (x :: xs) ys).2, (greedy r (x :: xs) ys).1) := by
            simp [greedy, hrem]

/-- Helper: a fully matching greedy run yields a multiset relation witness. -/
theorem greedy_full_rel (r : α → α → Bool) :
    ∀ (xs ys : List α), greedy r xs ys = ([], []) →
      Multiset.Rel (fun a b => r a b = true) (↑xs) (↑ys) := by
  intro xs
  induction xs with
  | nil =>
    intro ys h
    simp [greedy] at h
    simp [h]
  | cons x xs ih =>
    intro ys h
    cases hrem : removeFirst r x ys with
    | none => simp [greedy, hrem] at h
    | some ys' =>
      simp only [greedy, hrem] at h
      obtain ⟨p, y0, q, hys, hys', hr, _⟩ := removeFirst_eq_some r x ys ys' hrem
      have hrel : Multiset.Rel (fun a b => r a b = true) (↑xs) (↑ys') := ih ys' h
      have hcoe : (↑ys : Multiset α) = y0 ::ₘ (↑ys' : Multiset α) := by
        subst hys hys'
        simp [Multiset.cons_swap]
      show Multiset.Rel (fun a b => r a b = true) (↑(x :: xs)) (↑ys)
      rw [hcoe, ← Multiset.cons_coe]
      exact Multiset.Rel.cons hr hrel

theorem rel_refl_W (r : α → α → Bool) :
    ∀ (xs : List α), (∀ a ∈ xs, r a a = true) →
      Multiset.Rel (fun a b => r a b = true) (↑xs) (↑xs) := by
  intro xs
  induction xs with
  | nil => intro _; simp
  | cons x xs ih =>
    intro h
    rw [← Multiset.cons_coe]
    exact Multiset.Rel.cons (h x (by simp))
      (ih (fun a ha => h a (by simp [ha])))

theorem rel_trans_W (r : α → α → Bool) (W : α → Prop)
    (htrans : ∀ a b c, W a → W b → W c → r a b = true → r b c = true →
      r a c = true) :
    ∀ {s t : Multiset α}, Multiset.Rel (fun a b => r a b = true) s t →
      ∀ u : Multiset α, (∀ a ∈ s, W a) → (∀ b ∈ t, W b) → (∀ c ∈ u, W c) →
      Multiset.Rel (fun a b => r a b = true) t u →
      Multiset.Rel (fun a b => r a b = true) s u := by
  intro s t h1
  induction h1 with
  | zero =>
    intro u _ _ _ h2
    rw [Multiset.rel_zero_left] at h2
    rw [h2]
    exact Multiset.Rel.zero
  | @cons a b as bs hab h ih =>
    intro u hWs hWt hWu h2
    obtain ⟨c, u', hbc, hrel', rfl⟩ := Multiset.rel_cons_left.mp h2
    have hac := htrans a b c (hWs a (Multiset.mem_cons_self a as))
      (hWt b (Multiset.mem_cons_self b bs)) (hWu c (Multiset.mem_cons_self c u'))
      hab hbc
    exact Multiset.Rel.cons hac
      (ih u' (fun a' ha' => hWs a' (Multiset.mem_cons_of_mem ha'))
        (fun b' hb' => hWt b' (Multiset.mem_cons_of_mem hb'))
        (fun c' hc' => hWu c' (Multiset.mem_cons_of_mem hc')) hrel')

theorem greedy_full_of_rel (r : α → α → Bool) (W : α → Prop)
    (hsym : ∀ a b, W a → W b → r a b = r b a)
    (htrans : ∀ a b c, W a → W b → W c → r a b = true → r b c = true →
      r a c = true) :
    ∀ (xs ys : List α), (∀ a ∈ xs, W a) → (∀ b ∈ ys, W b) →
      Multiset.Rel (fun a b => r a b = true) (↑xs) (↑ys) →
      greedy r xs ys = ([], []) := by
  intro xs
  induction xs with
  | nil =>
    intro ys _ _ hrel
    have h0 : ys = [] := by simpa using hrel
    simp [h0, greedy]
  | cons x xs ih =>
    intro ys hWxs hWys hrel
    rw [← Multiset.cons_coe] at hrel
    obtain ⟨ystar, msstar, hrstar, hrelstar, hysstar⟩ :=
      Multiset.rel_cons_left.mp hrel
    have hystarmem : ystar ∈ ys := by
      have : ystar ∈ (↑ys : Multiset α) := by
        rw [hysstar]; exact Multiset.mem_cons_self _ _
      simpa using this
    cases hrem : removeFirst r x ys with
    | none =>
      rw [removeFirst_eq_none_iff] at hrem
      rw [hrem ystar hystarmem] at hrstar
      exact absurd hrstar (by simp)
    | some ys' =>
      obtain ⟨p, y0, q, hys, hys', hr0, hfirst⟩ :=
        removeFirst_eq_some r x ys ys' hrem
      have hy0mem : y0 ∈ ys := by rw [hys]; simp
      have hcoe : (↑ys : Multiset α) = y0 ::ₘ (↑ys' : Multiset α) := by
        subst hys hys'
        simp [Multiset.cons_swap]
      have hWys' : ∀ b ∈ ys', W b := by
        intro b hb
        apply hWys
        rw [hys]; rw [hys'] at hb
        rcases List.mem_append.mp hb with h | h
        · simp [h]
        · simp [h]
      have hrel' : Multiset.Rel (fun a b => r a b = true) (↑xs) (↑ys') := by
        rw [hcoe] at hysstar
        by_cases hyy : ystar = y0
        · subst hyy
          rw [Multiset.cons_inj_right] at hysstar
          rw [hysstar]
          exact hrelstar
        · rw [Multiset.cons_eq_cons] at hysstar
          rcases hysstar with ⟨h1, _⟩ | ⟨_, u, hu1, hu2⟩
          · exact absurd h1.symm hyy
          · rw [hu2] at hrelstar
            obtain ⟨x1, ms1, hx1y0, hrel1, hxs1⟩ :=
              Multiset.rel_cons_right.mp hrelstar
            have hx1mem : x1 ∈ xs := by
              have : x1 ∈ (↑xs : Multiset α) := by
                rw [hxs1]; exact Multiset.mem_cons_self _ _
              simpa using this
            have hWx : W x := hWxs x (by simp)
            have hWx1 : W x1 := hWxs x1 (by simp [hx1mem])
            have hWy0 : W y0 := hWys y0 hy0mem
            have hWystar : W ystar := hWys ystar hystarmem
            have hxy0 : r y0 x = true := by
              rw [hsym y0 x hWy0 hWx]; exact hr0
            have hx1x : r x1 x = true :=
              htrans x1 y0 x hWx1 hWy0 hWx hx1y0 hxy0
            have hx1ystar : r x1 ystar = true :=
              htrans x1 x ystar hWx1 hWx hWystar hx1x hrstar
            rw [hxs1, hu1]
            exact Multiset.Rel.cons hx1ystar hrel1
      have := ih ys' (fun a ha => hWxs a (by simp [ha])) hWys' hrel'
      simp [greedy, hrem, this]

/-! ### Association list and well-formedness helpers -/

theorem lookupV_mem {k : String} : ∀ {xs : List (String × Value)} {v : Value},
    lookupV k xs = some v → (k, v) ∈ xs := by
  intro xs
  induction xs with
  | nil => intro v h; simp [lookupV] at h
  | cons kv rest ih =>
    intro v h
    obtain ⟨k', v'⟩ := kv
    by_cases hk : k' = k
    · subst hk
      simp [lookupV] at h
      simp [h]
    · simp [lookupV, hk] at h
      simp [ih h]

theorem hasKey_of_mem {k : String} {v : Value} {xs : List (String × Value)}
    (h : (k, v) ∈ xs) : hasKey k xs = true := by
  simp only [hasKey, List.any_eq_true]
  exact ⟨(k, v), h, by simp⟩

theorem hasKey_iff_lookupV {k : String} : ∀ {xs : List (String × Value)},
    hasKey k xs = true ↔ ∃ v, lookupV k xs = some v := by
  intro xs
  induction xs with
  | nil => simp [hasKey, lookupV]
  | cons kv rest ih =>
    obtain ⟨k', v'⟩ := kv
    by_cases hk : k' = k
    · subst hk
      simp [hasKey, lookupV]
    · simp [hasKey, lookupV, hk, ← ih]

theorem lookupV_of_mem_nodup {k : String} {v : Value} :
    ∀ {xs : List (String × Value)}, nodupKeysB xs = true → (k, v) ∈ xs →
      lookupV k xs = some v := by
  intro xs
  induction xs with
  | nil => intro _ h; simp at h
  | cons kv rest ih =>
    intro hnd hmem
    obtain ⟨k', v'⟩ := kv
    simp only [nodupKeysB, Bool.and_eq_true, Bool.not_eq_true'] at hnd
    rcases List.mem_cons.mp hmem with h | h
    · rw [Prod.mk.injEq] at h
      obtain ⟨h1, h2⟩ := h
      subst h1 h2
      simp [lookupV]
    · by_cases hk : k' = k
      · subst hk
        exact absurd (hasKey_of_mem h) (by simp [hnd.1])
      · simp [lookupV, hk]
        exact ih hnd.2 h

theorem wfB_vmap_iff {xs : List (String × Value)} :
    wfB (.vmap xs) = true ↔
      nodupKeysB xs = true ∧ ∀ kv ∈ xs, wfB kv.2 = true := by
  have h2 : ∀ (l : List (String × Value)),
      wfMapB l = true ↔ ∀ kv ∈ l, wfB kv.2 = true := by
    intro l
    induction l with
    | nil => simp [wfMapB]
    | cons kv rest ih =>
      obtain ⟨k, v⟩ := kv
      simp [wfMapB, ih]
  simp [wfB, h2]

theorem wfB_vseq_iff {l : List Value} :
    wfB (.vseq l) = true ↔ ∀ x ∈ l, wfB x = true := by
  have h2 : ∀ (l : List Value), wfListB l = true ↔ ∀ x ∈ l, wfB x = true := by
    intro l
    induction l with
    | nil => simp [wfListB]
    | cons x rest ih => simp [wfListB, ih]
  simp [wfB, h2]

/-! ### Deep equality as the greedy reconciliation -/

theorem veqRem_eq_removeFirst (G : Groups) (x : Value) :
    ∀ (ys : List Value), veqRem G x ys = removeFirst (veq G) x ys := by
  intro ys
  induction ys with
  | nil => simp [veqRem, removeFirst]
  | cons y ys ih => simp [veqRem, removeFirst, ih]

theorem veqSeq_iff_greedy (G : Groups) :
    ∀ (xs ys : List Value),
      veqSeq G xs ys = true ↔ greedy (veq G) xs ys = ([], []) := by
  intro xs
  induction xs with
  | nil =>
    intro ys
    cases ys <;> simp [veqSeq, greedy]
  | cons x xs ih =>
    intro ys
    rw [veqSeq, veqRem_eq_removeFirst]
    cases hrem : removeFirst (veq G) x ys with
    | none => simp [greedy, hrem]
    | some ys' => simp [greedy, hrem, ih ys']

theorem mapSub_iff (G : Groups) :
    ∀ (sub ys : List (String × Value)),
      mapSub G sub ys = true ↔
        ∀ kv ∈ sub, ∃ w, lookupV kv.1 ys = some w ∧ veq G kv.2 w = true := by
  intro sub ys
  induction sub with
  | nil => simp [mapSub]
  | cons kv rest ih =>
    obtain ⟨k, v⟩ := kv
    rw [mapSub]
    cases hl : lookupV k ys with
    | none => simp [hl]
    | some w => simp [hl, ih, and_comm]

/-! ### Symmetry of the equivalence evaluator -/

theorem beq_comm_dec {α : Type _} [DecidableEq α] (x y : α) :
    (x == y) = (y == x) := by
  by_cases h : x = y
  · subst h; rfl
  · simp [h, Ne.symm h]

theorem inCommonGroup_symm (G : Groups) (t u : STag) :
    inCommonGroup G t u = inCommonGroup G u t := by
  simp [inCommonGroup, Bool.and_comm]

theorem scalarEqual_symm (G : Groups) (a b : Value) :
    scalarEqual G a b = scalarEqual G b a := by
  cases a <;> cases b <;>
    simp [scalarEqual, tagOf, inCommonGroup_symm, beq_comm_dec]

/-! ### Injectivity and image facts for the canonical scalar strings -/

theorem natDigitsAux_ofDigits :
    ∀ (fuel n : Nat), n ≤ fuel → Nat.ofDigits 10 (natDigitsAux fuel n) = n := by
  intro fuel
  induction fuel with
  | zero =>
    intro n hn
    interval_cases n
    simp [natDigitsAux]
  | succ fuel ih =>
    intro n hn
    by_cases h : n = 0
    · simp [natDigitsAux, h]
    · have hdiv : n / 10 ≤ fuel := by omega
      simp only [natDigitsAux, h, if_false, Nat.ofDigits_cons, ih _ hdiv]
      omega

theorem natDigits_ofDigits (n : Nat) : Nat.ofDigits 10 (natDigits n) = n :=
  natDigitsAux_ofDigits n n le_rfl

theorem natDigitsAux_lt10 :
    ∀ (fuel n d : Nat), d ∈ natDigitsAux fuel n → d < 10 := by
  intro fuel
  induction fuel with
  | zero => intro n d h; simp [natDigitsAux] at h
  | succ fuel ih =>
    intro n d h
    by_cases hn : n = 0
    · simp [natDigitsAux, hn] at h
    · simp only [natDigitsAux, hn, if_false, List.mem_cons] at h
      rcases h with h | h
      · omega
      · exact ih _ _ h

theorem natDigits_lt10 {n d : Nat} (h : d ∈ natDigits n) : d < 10 :=
  natDigitsAux_lt10 n n d h

theorem natDigits_ne_nil {n : Nat} (h : n ≠ 0) : natDigits n ≠ [] := by
  obtain ⟨m, rfl⟩ := Nat.exists_eq_succ_of_ne_zero h
  simp [natDigits, natDigitsAux]

theorem digitChar_inj_lt10 :
    ∀ a < 10, ∀ b < 10, Nat.digitChar a = Nat.digitChar b → a = b := by decide

theorem digitChar_ne_lt10 :
    ∀ d < 10, Nat.digitChar d ≠ '-' ∧ Nat.digitChar d ≠ 'n' ∧
      Nat.digitChar d ≠ 't' ∧ Nat.digitChar d ≠ 'f' := by decide

theorem map_digitChar_inj :
    ∀ (l1 l2 : List Nat), (∀ d ∈ l1, d < 10) → (∀ d ∈ l2, d < 10) →
      l1.map Nat.digitChar = l2.map Nat.digitChar → l1 = l2 := by
  intro l1
  induction l1 with
  | nil => intro l2 _ _ h; cases l2 <;> simp_all
  | cons a l1 ih =>
    intro l2 h1 h2 h
    cases l2 with
    | nil => simp at h
    | cons b l2 =>
      simp only [List.map_cons, List.cons.injEq] at h
      have hab : a = b :=
        digitChar_inj_lt10 a (h1 a (by simp)) b (h2 b (by simp)) h.1
      have := ih l2 (fun d hd => h1 d (by simp [hd])) (fun d hd => h2 d (by simp [hd])) h.2
      simp [hab, this]

theorem canonNat_data (n : Nat) :
    (canonNat n).data =
      (if n = 0 then [0] else (natDigits n).reverse).map Nat.digitChar := by
  by_cases h : n = 0
  · simp [canonNat, h]
    rfl
  · simp [canonNat, h]

theorem canonNat_inj {n m : Nat} (h : canonNat n = canonNat m) : n = m := by
  rw [String.ext_iff, canonNat_data, canonNat_data] at h
  have hb1 : ∀ d ∈ (if n = 0 then [0] else (natDigits n).reverse), d < 10 := by
    by_cases hn : n = 0 <;> simp [hn] <;> intro d hd <;>
      exact natDigits_lt10 (by simpa using hd)
  have hb2 : ∀ d ∈ (if m = 0 then [0] else (natDigits m).reverse), d < 10 := by
    by_cases hm : m = 0 <;> simp [hm] <;> intro d hd <;>
      exact natDigits_lt10 (by simpa using hd)
  have hlist := map_digitChar_inj _ _ hb1 hb2 h
  by_cases hn : n = 0 <;> by_cases hm : m = 0
  · omega
  · exfalso
    simp only [hn, if_true, hm, if_false] at hlist
    have : natDigits m = [0] := by
      have := congrArg List.reverse hlist
      simpa using this.symm
    have h0 := natDigits_ofDigits m
    rw [this] at h0
    simp [Nat.ofDigits_cons, Nat.ofDigits_nil] at h0
    exact hm h0.symm
  · exfalso
    simp only [hn, if_false, hm, if_true] at hlist
    have : natDigits n = [0] := by
      have := congrArg List.reverse hlist
      simpa using this
    have h0 := natDigits_ofDigits n
    rw [this] at h0
    simp [Nat.ofDigits_cons, Nat.ofDigits_nil] at h0
    exact hn h0.symm
  · simp only [hn, if_false, hm, if_false] at hlist
    have : natDigits n = natDigits m := by
      have := congrArg List.reverse hlist
      simpa using this
    have h1 := natDigits_ofDigits n
    rw [this] at h1
    rw [natDigits_ofDigits m] at h1
    omega

theorem canonNat_head (n : Nat) :
    ∃ d rest, d < 10 ∧ (canonNat n).data = Nat.digitChar d :: rest := by
  by_cases h : n = 0
  · refine ⟨0, [], by omega, ?_⟩
    rw [canonNat_data]
    simp [h]
  · have hne : (natDigits n).reverse ≠ [] := by
      simp [natDigits_ne_nil h]
    obtain ⟨d, l, hl⟩ := List.exists_cons_of_ne_nil hne
    have hd : d ∈ natDigits n := by
      have : d ∈ (natDigits n).reverse := by simp [hl]
      simpa using this
    refine ⟨d, l.map Nat.digitChar, natDigits_lt10 hd, ?_⟩
    rw [canonNat_data]
    simp [h, hl]

theorem canonInt_inj {i j : Int} (h : canonInt i = canonInt j) : i = j := by
  cases i with
  | ofNat n =>
    cases j with
    | ofNat m =>
      simp only [canonInt] at h
      rw [canonNat_inj h]
    | negSucc m =>
      exfalso
      simp only [canonInt] at h
      obtain ⟨d, rest, hd10, hdata⟩ := canonNat_head n
      rw [String.ext_iff, hdata, String.data_append] at h
      have : Nat.digitChar d = '-' := by
        have hm : ("-" : String).data = ['-'] := rfl
        rw [hm] at h
        exact List.head_eq_of_cons_eq h
      exact (digitChar_ne_lt10 d hd10).1 this
  | negSucc n =>
    cases j with
    | ofNat m =>
      exfalso
      simp only [canonInt] at h
      obtain ⟨d, rest, hd10, hdata⟩ := canonNat_head m
      rw [String.ext_iff, hdata, String.data_append] at h
      have : Nat.digitChar d = '-' := by
        have hm : ("-" : String).data = ['-'] := rfl
        rw [hm] at h
        exact (List.head_eq_of_cons_eq h.symm)
      exact (digitChar_ne_lt10 d hd10).1 this
    | negSucc m =>
      simp only [canonInt] at h
      rw [String.ext_iff, String.data_append, String.data_append] at h
      have h2 : (canonNat (n + 1)).data = (canonNat (m + 1)).data := by
        have hm : ("-" : String).data = ['-'] := rfl
        rw [hm] at h
        simpa using h
      have hnm := canonNat_inj (String.ext_iff.mpr h2)
      have hnm' : n = m := by omega
      rw [hnm']

theorem canonInt_ne_words (i : Int) :
    canonInt i ≠ "null" ∧ canonInt i ≠ "true" ∧ canonInt i ≠ "false" := by
  have hhead : ∃ c rest, (canonInt i).data = c :: rest ∧
      c ≠ 'n' ∧ c ≠ 't' ∧ c ≠ 'f' := by
    cases i with
    | ofNat n =>
      obtain ⟨d, rest, hd10, hdata⟩ := canonNat_head n
      obtain ⟨_, hn, ht, hf⟩ := digitChar_ne_lt10 d hd10
      exact ⟨Nat.digitChar d, rest, hdata, hn, ht, hf⟩
    | negSucc n =>
      refine ⟨'-', (canonNat (n + 1)).data, ?_, by decide, by decide, by decide⟩
      simp only [canonInt, String.data_append]
      rfl
  obtain ⟨c, rest, hdata, hn, ht, hf⟩ := hhead
  refine ⟨?_, ?_, ?_⟩ <;> intro h <;> rw [String.ext_iff, hdata] at h
  · exact hn (List.head_eq_of_cons_eq h)
  · exact ht (List.head_eq_of_cons_eq h)
  · exact hf (List.head_eq_of_cons_eq h)

/-! ### Canon soundness for the equivalence evaluator -/

theorem canonBool_inj : ∀ (x y : Bool),
    (if x then "true" else "false") = (if y then "true" else "false") → x = y := by
  decide

theorem scalarEqual_canon (G : Groups) (a b : Value)
    (h : scalarEqual G a b = true) : canonScalar a = canonScalar b := by
  cases a <;> cases b <;>
    simp only [scalarEqual, canonScalar, tagOf] at h ⊢ <;>
    (try (split at h)) <;> simp_all

theorem scalarEqual_tags (G : Groups) (a b : Value)
    (h : scalarEqual G a b = true) :
    ∃ ta tb, tagOf a = some ta ∧ tagOf b = some tb ∧
      (ta = tb ∨ inCommonGroup G ta tb = true) := by
  cases a <;> cases b <;>
    simp only [scalarEqual, tagOf] at h ⊢ <;>
    (try (split at h)) <;> simp_all

theorem scalarEqual_of_canon (G : Groups) (a b : Value) (ta tb : STag)
    (h1 : tagOf a = some ta) (h2 : tagOf b = some tb)
    (hg : ta = tb ∨ inCommonGroup G ta tb = true)
    (hc : canonScalar a = canonScalar b) : scalarEqual G a b = true := by
  cases a <;> cases b <;>
    simp only [tagOf, Option.some.injEq, reduceCtorEq] at h1 h2 <;>
    (try exact absurd h1 (by simp)) <;> (try exact absurd h2 (by simp)) <;>
    subst h1 <;> subst h2 <;>
    simp only [canonScalar] at hc <;>
    simp only [scalarEqual, tagOf]
  case vnull.vbool b =>
    exfalso
    cases b <;> simp at hc
  case vnull.vnum n =>
    exact absurd hc.symm (canonInt_ne_words n).1
  case vnull.vtext s =>
    rcases hg with hg | hg
    · simp at hg
    · simp [canonScalar, hg, hc]
  case vbool.vnull b =>
    exfalso
    cases b <;> simp at hc
  case vbool.vbool x y =>
    simp [canonBool_inj x y hc]
  case vbool.vnum x n =>
    exfalso
    rcases (canonInt_ne_words n) with ⟨_, h2', h3'⟩
    cases x
    · exact h3' hc.symm
    · exact h2' hc.symm
  case vbool.vtext x s =>
    rcases hg with hg | hg
    · simp at hg
    · simp [canonScalar, hg, hc]
  case vnum.vnull n =>
    exact absurd hc (canonInt_ne_words n).1
  case vnum.vbool n x =>
    exfalso
    rcases (canonInt_ne_words n) with ⟨_, h2', h3'⟩
    cases x
    · exact h3' hc
    · exact h2' hc
  case vnum.vnum n m =>
    simp [canonInt_inj hc]
  case vnum.vtext n s =>
    rcases hg with hg | hg
    · simp at hg
    · simp [canonScalar, hg, hc]
  case vtext.vnull s =>
    rcases hg with hg | hg
    · simp at hg
    · simp [canonScalar, hg, hc]
  case vtext.vbool s x =>
    rcases hg with hg | hg
    · simp at hg
    · simp [canonScalar, hg, hc]
  case vtext.vnum s n =>
    rcases hg with hg | hg
    · simp at hg
    · simp [canonScalar, hg, hc]
  case vtext.vtext s t =>
    simp [hc]


/-! ### Reflexivity and transitivity of the equivalence evaluator -/

theorem scalarEqual_refl_scalar (G : Groups) (a : Value) (ta : STag)
    (h : tagOf a = some ta) : scalarEqual G a a = true := by
  cases a <;> simp_all [scalarEqual, tagOf]

theorem canon_disjoint (a c : Value) (ta tc : STag)
    (h1 : tagOf a = some ta) (h2 : tagOf c = some tc) (hne : ta ≠ tc)
    (hta : ta ≠ .ttext) (htc : tc ≠ .ttext) :
    canonScalar a ≠ canonScalar c := by
  cases a <;> cases c <;>
    simp only [tagOf, Option.some.injEq, reduceCtorEq] at h1 h2 <;>
    (try exact absurd h1 (by simp)) <;> (try exact absurd h2 (by simp)) <;>
    subst h1 <;> subst h2 <;>
    simp only [canonScalar] <;>
    first
    | exact absurd rfl hne
    | exact absurd rfl hta
    | exact absurd rfl htc
    | skip
  case vnull.vbool b => cases b <;> decide
  case vbool.vnull b => cases b <;> decide
  case vnull.vnum n =>
    intro h
    exact (canonInt_ne_words n).1 h.symm
  case vnum.vnull n => exact (canonInt_ne_words n).1
  case vbool.vnum b n =>
    intro h
    rcases canonInt_ne_words n with ⟨_, h2', h3'⟩
    cases b
    · exact h3' h.symm
    · exact h2' h.symm
  case vnum.vbool n b =>
    intro h
    rcases canonInt_ne_words n with ⟨_, h2', h3'⟩
    cases b
    · exact h3' h
    · exact h2' h

theorem scalarEqual_trans (G : Groups) (a b c : Value)
    (hab : scalarEqual G a b = true) (hbc : scalarEqual G b c = true) :
    scalarEqual G a c = true := by
  obtain ⟨ta, tb, hta, htb, hgab⟩ := scalarEqual_tags G a b hab
  obtain ⟨tb', tc, htb', htc, hgbc⟩ := scalarEqual_tags G b c hbc
  rw [htb] at htb'
  obtain rfl : tb = tb' := by injection htb'
  have hcab := scalarEqual_canon G a b hab
  have hcbc := scalarEqual_canon G b c hbc
  have hcac : canonScalar a = canonScalar c := hcab.trans hcbc
  by_cases hac : ta = tc
  · exact scalarEqual_of_canon G a c ta tc hta htc (Or.inl hac) hcac
  · have hgroup : inCommonGroup G ta tc = true := by
      rcases hgab with hab2 | hgab
      · rcases hgbc with hbc2 | hgbc
        · exact absurd (hab2.trans hbc2) hac
        · rw [hab2]; exact hgbc
      · rcases hgbc with hbc2 | hgbc
        · rw [← hbc2]; exact hgab
        · by_cases hab' : ta = tb
          · rw [hab']; exact hgbc
          · by_cases hbc' : tb = tc
            · rw [← hbc']; exact hgab
            · exfalso
              by_cases h1 : ta = .ttext
              · exact canon_disjoint b c tb tc htb htc hbc'
                  (fun h => hab' (h1.trans h.symm)) (fun h => hac (h1.trans h.symm)) hcbc
              · by_cases h2 : tb = .ttext
                · exact canon_disjoint a c ta tc hta htc hac h1
                    (fun h => hbc' (h2.trans h.symm)) hcac
                · exact canon_disjoint a b ta tb hta htb hab' h1 h2 hcab
    exact scalarEqual_of_canon G a c ta tc hta htc (Or.inr hgroup) hcac

/-! ### Size bounds and reflexivity of deep equality -/

theorem bool_eq_of_iff {a b : Bool} (h : a = true ↔ b = true) : a = b := by
  cases a <;> cases b <;> simp_all

theorem sizeOf_mem_vseq {x : Value} {l : List Value} (h : x ∈ l) :
    sizeOf x < sizeOf (Value.vseq l) := by
  have h1 := List.sizeOf_lt_of_mem h
  have h2 : sizeOf (Value.vseq l) = 1 + sizeOf l := by simp
  omega

theorem sizeOf_mem_vmap {kv : String × Value} {xs : List (String × Value)}
    (h : kv ∈ xs) : sizeOf kv.2 < sizeOf (Value.vmap xs) := by
  have h1 := List.sizeOf_lt_of_mem h
  have h2 : sizeOf (Value.vmap xs) = 1 + sizeOf xs := by simp
  have h3 : sizeOf kv.2 < sizeOf kv := by
    obtain ⟨k, v⟩ := kv
    simp
  omega

theorem veqSeq_refl_of (G : Groups) :
    ∀ (l : List Value), (∀ x ∈ l, veq G x x = true) → veqSeq G l l = true := by
  intro l
  induction l with
  | nil => simp [veqSeq]
  | cons x t ih =>
    intro h
    rw [veqSeq, veqRem_eq_removeFirst]
    have hx : veq G x x = true := h x (by simp)
    simp only [removeFirst, hx, if_true]
    exact ih (fun y hy => h y (by simp [hy]))

theorem veq_refl_aux (G : Groups) :
    ∀ (n : Nat) (a : Value), sizeOf a < n → wfB a = true → veq G a a = true := by
  intro n
  induction n with
  | zero => intro a h _; omega
  | succ n ih =>
    intro a ha hwf
    cases a with
    | vnull => simp [veq, scalarEqual]
    | vbool b => simp [veq, scalarEqual]
    | vnum i => simp [veq, scalarEqual]
    | vtext s => simp [veq, scalarEqual]
    | vseq l =>
      rw [veq]
      have hmem := wfB_vseq_iff.mp hwf
      exact veqSeq_refl_of G l (fun x hx =>
        ih x (by have := sizeOf_mem_vseq hx; omega) (hmem x hx))
    | vmap xs =>
      rw [veq]
      obtain ⟨hnd, hmem⟩ := wfB_vmap_iff.mp hwf
      have h1 : mapSub G xs xs = true := by
        rw [mapSub_iff]
        intro kv hkv
        refine ⟨kv.2, ?_, ?_⟩
        · exact lookupV_of_mem_nodup hnd (by simpa using hkv)
        · exact ih kv.2 (by have := sizeOf_mem_vmap hkv; omega) (hmem kv hkv)
      have h2 : xs.all (fun p => hasKey p.1 xs) = true := by
        rw [List.all_eq_true]
        intro kv hkv
        exact hasKey_of_mem (v := kv.2) (by simpa using hkv)
      simp [h1, h2]

theorem veq_refl (G : Groups) (a : Value) (hwf : wfB a = true) :
    veq G a a = true :=
  veq_refl_aux G (sizeOf a + 1) a (by omega) hwf

/-! ### Symmetry of deep equality -/

theorem veq_vmap_true_iff (G : Groups) (xs ys : List (String × Value)) :
    veq G (.vmap xs) (.vmap ys) = true ↔
      (∀ kv ∈ xs, ∃ w, lookupV kv.1 ys = some w ∧ veq G kv.2 w = true) ∧
      (∀ kv ∈ ys, hasKey kv.1 xs = true) := by
  rw [veq, Bool.and_eq_true, mapSub_iff, List.all_eq_true]

theorem veq_symm_aux (G : Groups) :
    ∀ (n : Nat) (a b : Value), sizeOf a + sizeOf b < n →
      wfB a = true → wfB b = true → veq G a b = veq G b a := by
  intro n
  induction n with
  | zero => intro a b h _ _; omega
  | succ n ih =>
    intro a b hab hwa hwb
    have hflip : ∀ (xs ys : List (String × Value)),
        sizeOf (Value.vmap xs) + sizeOf (Value.vmap ys) < n + 1 →
        wfB (Value.vmap xs) = true → wfB (Value.vmap ys) = true →
        veq G (.vmap xs) (.vmap ys) = true → veq G (.vmap ys) (.vmap xs) = true := by
      intro xs ys hsz hwx hwy h
      obtain ⟨hndx, hmx⟩ := wfB_vmap_iff.mp hwx
      obtain ⟨hndy, hmy⟩ := wfB_vmap_iff.mp hwy
      rw [veq_vmap_true_iff] at h ⊢
      obtain ⟨h1, h2⟩ := h
      constructor
      · intro kv hkv
        obtain ⟨v, hlv⟩ := hasKey_iff_lookupV.mp (h2 kv hkv)
        have hvmem : (kv.1, v) ∈ xs := lookupV_mem hlv
        obtain ⟨w', hlw', hvw'⟩ := h1 (kv.1, v) hvmem
        have hw' : w' = kv.2 := by
          have := lookupV_of_mem_nodup hndy (by simpa using hkv)
          rw [this] at hlw'
          injection hlw' with h
          exact h.symm
        subst hw'
        refine ⟨v, hlv, ?_⟩
        rw [ih (kv.2) v (by
          have s1 := sizeOf_mem_vmap hkv
          have s2 := sizeOf_mem_vmap hvmem
          simp only at s1 s2
          omega) (hmy kv hkv) (hmx (kv.1, v) hvmem)]
        exact hvw'
      · intro kv hkv
        obtain ⟨w, hlw, _⟩ := h1 kv hkv
        exact hasKey_iff_lookupV.mpr ⟨w, hlw⟩
    cases a with
    | vseq l =>
      cases b with
      | vseq m =>
        apply bool_eq_of_iff
        rw [veq, veq, veqSeq_iff_greedy, veqSeq_iff_greedy]
        have hsym : ∀ x ∈ l, ∀ y ∈ m, veq G x y = veq G y x := by
          intro x hx y hy
          exact ih x y (by
            have := sizeOf_mem_vseq hx
            have := sizeOf_mem_vseq hy
            omega) (wfB_vseq_iff.mp hwa x hx) (wfB_vseq_iff.mp hwb y hy)
        have hswap := greedy_swap (veq G) l m hsym
        rw [hswap]
        constructor
        · intro h
          rw [h]
        · intro h
          have h1 : (greedy (veq G) l m).2 = [] := congrArg Prod.fst h
          have h2 : (greedy (veq G) l m).1 = [] := congrArg Prod.snd h
          rw [Prod.ext_iff]
          exact ⟨h2, h1⟩
      | vnull => simp only [veq]; exact scalarEqual_symm G _ _
      | vbool x => simp only [veq]; exact scalarEqual_symm G _ _
      | vnum x => simp only [veq]; exact scalarEqual_symm G _ _
      | vtext x => simp only [veq]; exact scalarEqual_symm G _ _
      | vmap ys => simp only [veq]; exact scalarEqual_symm G _ _
    | vmap xs =>
      cases b with
      | vmap ys =>
        apply bool_eq_of_iff
        constructor
        · exact hflip xs ys hab hwa hwb
        · exact hflip ys xs (by omega) hwb hwa
      | vnull => simp only [veq]; exact scalarEqual_symm G _ _
      | vbool x => simp only [veq]; exact scalarEqual_symm G _ _
      | vnum x => simp only [veq]; exact scalarEqual_symm G _ _
      | vtext x => simp only [veq]; exact scalarEqual_symm G _ _
      | vseq m => simp only [veq]; exact scalarEqual_symm G _ _
    | vnull =>
      cases b <;> simp only [veq] <;> exact scalarEqual_symm G _ _
    | vbool x =>
      cases b <;> simp only [veq] <;> exact scalarEqual_symm G _ _
    | vnum x =>
      cases b <;> simp only [veq] <;> exact scalarEqual_symm G _ _
    | vtext x =>
      cases b <;> simp only [veq] <;> exact scalarEqual_symm G _ _

theorem veq_symm (G : Groups) (a b : Value) (hwa : wfB a = true)
    (hwb : wfB b = true) : veq G a b = veq G b a :=
  veq_symm_aux G (sizeOf a + sizeOf b + 1) a b (by omega) hwa hwb

/-! ### Transitivity of deep equality -/

theorem veq_trans_aux (G : Groups) :
    ∀ (n : Nat) (a b c : Value),
      max (max (sizeOf a) (sizeOf b)) (sizeOf c) < n →
      wfB a = true → wfB b = true → wfB c = true →
      veq G a b = true → veq G b c = true → veq G a c = true := by
  intro n
  induction n with
  | zero => intro a b c h _ _ _ _ _; omega
  | succ n ih =>
    intro a b c hsz hwa hwb hwc hab hbc
    cases a with
    | vmap xs =>
      cases b with
      | vmap ys =>
        cases c with
        | vmap zs =>
          obtain ⟨hndx, hmx⟩ := wfB_vmap_iff.mp hwa
          obtain ⟨hndy, hmy⟩ := wfB_vmap_iff.mp hwb
          obtain ⟨hndz, hmz⟩ := wfB_vmap_iff.mp hwc
          rw [veq_vmap_true_iff] at hab hbc ⊢
          obtain ⟨h1, h2⟩ := hab
          obtain ⟨h3, h4⟩ := hbc
          constructor
          · intro kv hkv
            obtain ⟨w, hlw, hvw⟩ := h1 kv hkv
            have hwmem : (kv.1, w) ∈ ys := lookupV_mem hlw
            obtain ⟨u, hlu, hwu⟩ := h3 (kv.1, w) hwmem
            refine ⟨u, hlu, ?_⟩
            have s1 := sizeOf_mem_vmap hkv
            have s2 := sizeOf_mem_vmap hwmem
            have s3 := sizeOf_mem_vmap (lookupV_mem hlu)
            simp only at s2 s3
            exact ih kv.2 w u (by omega) (hmx kv hkv) (hmy (kv.1, w) hwmem)
              (hmz (kv.1, u) (lookupV_mem hlu)) hvw hwu
          · intro kv hkv
            obtain ⟨w, hlw⟩ := hasKey_iff_lookupV.mp (h4 kv hkv)
            exact h2 (kv.1, w) (lookupV_mem hlw)
        | vnull => exact absurd hbc (by simp [veq, scalarEqual, tagOf])
        | vbool xb => exact absurd hbc (by simp [veq, scalarEqual, tagOf])
        | vnum xn => exact absurd hbc (by simp [veq, scalarEqual, tagOf])
        | vtext xt => exact absurd hbc (by simp [veq, scalarEqual, tagOf])
        | vseq o => exact absurd hbc (by simp [veq, scalarEqual, tagOf])
      | vnull => exact absurd hab (by simp [veq, scalarEqual, tagOf])
      | vbool xb => exact absurd hab (by simp [veq, scalarEqual, tagOf])
      | vnum xn => exact absurd hab (by simp [veq, scalarEqual, tagOf])
      | vtext xt => exact absurd hab (by simp [veq, scalarEqual, tagOf])
      | vseq m => exact absurd hab (by simp [veq, scalarEqual, tagOf])
    | vseq l =>
      cases b with
      | vseq m =>
        cases c with
        | vseq o =>
          rw [veq] at hab hbc ⊢
          rw [veqSeq_iff_greedy] at hab hbc ⊢
          have r1 := greedy_full_rel (veq G) l m hab
          have r2 := greedy_full_rel (veq G) m o hbc
          have hWl : ∀ v ∈ l, wfB v = true ∧ sizeOf v < n := by
            intro v hv
            have := sizeOf_mem_vseq hv
            exact ⟨wfB_vseq_iff.mp hwa v hv, by omega⟩
          have hWm : ∀ v ∈ m, wfB v = true ∧ sizeOf v < n := by
            intro v hv
            have := sizeOf_mem_vseq hv
            exact ⟨wfB_vseq_iff.mp hwb v hv, by omega⟩
          have hWo : ∀ v ∈ o, wfB v = true ∧ sizeOf v < n := by
            intro v hv
            have := sizeOf_mem_vseq hv
            exact ⟨wfB_vseq_iff.mp hwc v hv, by omega⟩
          have htrans : ∀ x y z : Value,
              (wfB x = true ∧ sizeOf x < n) → (wfB y = true ∧ sizeOf y < n) →
              (wfB z = true ∧ sizeOf z < n) →
              veq G x y = true → veq G y z = true → veq G x z = true := by
            intro x y z ⟨hx1, hx2⟩ ⟨hy1, hy2⟩ ⟨hz1, hz2⟩ hxy hyz
            exact ih x y z (by omega) hx1 hy1 hz1 hxy hyz
          have hsym : ∀ x y : Value,
              (wfB x = true ∧ sizeOf x < n) → (wfB y = true ∧ sizeOf y < n) →
              veq G x y = veq G y x := by
            intro x y ⟨hx1, _⟩ ⟨hy1, _⟩
            exact veq_symm G x y hx1 hy1
          have hrel : Multiset.Rel (fun x y => veq G x y = true) (↑l) (↑o) := by
            refine rel_trans_W (veq G) (fun v => wfB v = true ∧ sizeOf v < n)
              htrans r1 (↑o) ?_ ?_ ?_ r2
            · intro v hv; exact hWl v (by simpa using hv)
            · intro v hv; exact hWm v (by simpa using hv)
            · intro v hv; exact hWo v (by simpa using hv)
          exact greedy_full_of_rel (veq G) (fun v => wfB v = true ∧ sizeOf v < n)
            hsym htrans l o hWl hWo hrel
        | vnull => exact absurd hbc (by simp [veq, scalarEqual, tagOf])
        | vbool xb => exact absurd hbc (by simp [veq, scalarEqual, tagOf])
        | vnum xn => exact absurd hbc (by simp [veq, scalarEqual, tagOf])
        | vtext xt => exact absurd hbc (by simp [veq, scalarEqual, tagOf])
        | vmap zs => exact absurd hbc (by simp [veq, scalarEqual, tagOf])
      | vnull => exact absurd hab (by simp [veq, scalarEqual, tagOf])
      | vbool xb => exact absurd hab (by simp [veq, scalarEqual, tagOf])
      | vnum xn => exact absurd hab (by simp [veq, scalarEqual, tagOf])
      | vtext xt => exact absurd hab (by simp [veq, scalarEqual, tagOf])
      | vmap ys => exact absurd hab (by simp [veq, scalarEqual, tagOf])
    | vnull =>
      cases b <;> first
        | (refine absurd hab ?_; simp [veq, scalarEqual, tagOf]; done)
        | (cases c <;> first
            | (refine absurd hbc ?_; simp [veq, scalarEqual, tagOf]; done)
            | (simp only [veq] at hab hbc ⊢
               exact scalarEqual_trans G _ _ _ hab hbc))
    | vbool xb =>
      cases b <;> first
        | (refine absurd hab ?_; simp [veq, scalarEqual, tagOf]; done)
        | (cases c <;> first
            | (refine absurd hbc ?_; simp [veq, scalarEqual, tagOf]; done)
            | (simp only [veq] at hab hbc ⊢
               exact scalarEqual_trans G _ _ _ hab hbc))
    | vnum xn =>
      cases b <;> first
        | (refine absurd hab ?_; simp [veq, scalarEqual, tagOf]; done)
        | (cases c <;> first
            | (refine absurd hbc ?_; simp [veq, scalarEqual, tagOf]; done)
            | (simp only [veq] at hab hbc ⊢
               exact scalarEqual_trans G _ _ _ hab hbc))
    | vtext xt =>
      cases b <;> first
        | (refine absurd hab ?_; simp [veq, scalarEqual, tagOf]; done)
        | (cases c <;> first
            | (refine absurd hbc ?_; simp [veq, scalarEqual, tagOf]; done)
            | (simp only [veq] at hab hbc ⊢
               exact scalarEqual_trans G _ _ _ hab hbc))

theorem veq_trans (G : Groups) (a b c : Value) (hwa : wfB a = true)
    (hwb : wfB b = true) (hwc : wfB c = true) (hab : veq G a b = true)
    (hbc : veq G b c = true) : veq G a c = true :=
  veq_trans_aux G (max (max (sizeOf a) (sizeOf b)) (sizeOf c) + 1) a b c
    (by omega) hwa hwb hwc hab hbc

/-! ### The comparison is empty exactly on deeply equal values -/

theorem removedKeys_eq_nil_iff (p : DPath) (xs ys : List (String × Value)) :
    removedKeys p xs ys = [] ↔ ∀ kv ∈ xs, hasKey kv.1 ys = true := by
  rw [removedKeys, List.filterMap_eq_nil]
  constructor
  · intro h kv hkv
    have := h kv hkv
    by_cases hk : hasKey kv.1 ys = true
    · exact hk
    · simp [hk] at this
  · intro h kv hkv
    simp [h kv hkv]

theorem addedKeys_eq_nil_iff (p : DPath) (xs ys : List (String × Value)) :
    addedKeys p xs ys = [] ↔ ∀ kv ∈ ys, hasKey kv.1 xs = true := by
  rw [addedKeys, List.filterMap_eq_nil]
  constructor
  · intro h kv hkv
    have := h kv hkv
    by_cases hk : hasKey kv.1 xs = true
    · exact hk
    · simp [hk] at this
  · intro h kv hkv
    simp [h kv hkv]

theorem compareCommon_eq_nil_iff (G : Groups) (p : DPath) :
    ∀ (xs ys : List (String × Value)),
      compareCommon G p xs ys = [] ↔
        ∀ kv ∈ xs, ∀ w, lookupV kv.1 ys = some w →
          compareValue G (p ++ [kv.1]) kv.2 w = [] := by
  intro xs ys
  induction xs with
  | nil => simp [compareCommon]
  | cons kv rest ih =>
    obtain ⟨k, v⟩ := kv
    rw [compareCommon]
    cases hl : lookupV k ys with
    | none =>
      simp only [List.nil_append, List.append_eq_nil]
      rw [ih]
      constructor
      · intro h kv' hkv' w hw
        rcases List.mem_cons.mp hkv' with rfl | hm
        · simp only at hw
          rw [hl] at hw
          cases hw
        · exact h kv' hm w hw
      · intro h kv' hm w hw
        exact h kv' (by simp [hm]) w hw
    | some w =>
      rw [List.append_eq_nil, ih]
      constructor
      · intro ⟨h1, h2⟩ kv' hkv' w' hw'
        rcases List.mem_cons.mp hkv' with rfl | hm
        · simp only at hw'
          rw [hl] at hw'
          injection hw' with hww
          rw [← hww]
          exact h1
        · exact h2 kv' hm w' hw'
      · intro h
        exact ⟨h (k, v) (by simp) w hl, fun kv' hm w' hw' => h kv' (by simp [hm]) w' hw'⟩

theorem compare_nil_iff_of_scalar (G : Groups) (p : DPath) (a b : Value)
    (hcomp : compareValue G p a b =
      (if scalarEqual G a b then [] else [.changed p a b]))
    (hveq : veq G a b = scalarEqual G a b) :
    compareValue G p a b = [] ↔ veq G a b = true := by
  rw [hcomp, hveq]
  by_cases hs : scalarEqual G a b = true <;> simp [hs]

theorem compare_nil_iff_veq (G : Groups) :
    ∀ (n : Nat) (a b : Value), sizeOf a + sizeOf b < n → ∀ (p : DPath),
      (compareValue G p a b = [] ↔ veq G a b = true) := by
  intro n
  induction n with
  | zero => intro a b h; omega
  | succ n ih =>
    intro a b hab p
    cases a with
    | vmap xs =>
      cases b with
      | vmap ys =>
        rw [compareValue, veq_vmap_true_iff]
        simp only [List.append_eq_nil]
        rw [compareCommon_eq_nil_iff, removedKeys_eq_nil_iff, addedKeys_eq_nil_iff]
        constructor
        · intro ⟨⟨hc, hr⟩, ha⟩
          refine ⟨?_, ha⟩
          intro kv hkv
          obtain ⟨w, hw⟩ := hasKey_iff_lookupV.mp (hr kv hkv)
          refine ⟨w, hw, ?_⟩
          rw [← ih kv.2 w (by
            have s1 := sizeOf_mem_vmap hkv
            have s2 := sizeOf_mem_vmap (lookupV_mem hw)
            simp only at s1 s2
            omega) (p ++ [kv.1])]
          exact hc kv hkv w hw
        · intro ⟨h1, h2⟩
          refine ⟨⟨?_, ?_⟩, h2⟩
          · intro kv hkv w hw
            obtain ⟨w', hw', hveq⟩ := h1 kv hkv
            rw [hw] at hw'
            injection hw' with hww
            rw [ih kv.2 w (by
              have s1 := sizeOf_mem_vmap hkv
              have s2 := sizeOf_mem_vmap (lookupV_mem hw)
              simp only at s1 s2
              omega) (p ++ [kv.1])]
            rw [hww]
            exact hveq
          · intro kv hkv
            obtain ⟨w', hw', _⟩ := h1 kv hkv
            exact hasKey_iff_lookupV.mpr ⟨w', hw'⟩
      | vnull =>
        exact compare_nil_iff_of_scalar G p _ _ (by simp [compareValue]) (by simp [veq])
      | vbool xb =>
        exact compare_nil_iff_of_scalar G p _ _ (by simp [compareValue]) (by simp [veq])
      | vnum xn =>
        exact compare_nil_iff_of_scalar G p _ _ (by simp [compareValue]) (by simp [veq])
      | vtext xt =>
        exact compare_nil_iff_of_scalar G p _ _ (by simp [compareValue]) (by simp [veq])
      | vseq m =>
        exact compare_nil_iff_of_scalar G p _ _ (by simp [compareValue]) (by simp [veq])
    | vseq l =>
      cases b with
      | vseq m =>
        rw [compareValue, veq, veqSeq_iff_greedy]
        cases hg : greedy (veq G) l m with
        | mk ro rn => simp [hg, Prod.ext_iff]
      | vnull =>
        exact compare_nil_iff_of_scalar G p _ _ (by simp [compareValue]) (by simp [veq])
      | vbool xb =>
        exact compare_nil_iff_of_scalar G p _ _ (by simp [compareValue]) (by simp [veq])
      | vnum xn =>
        exact compare_nil_iff_of_scalar G p _ _ (by simp [compareValue]) (by simp [veq])
      | vtext xt =>
        exact compare_nil_iff_of_scalar G p _ _ (by simp [compareValue]) (by simp [veq])
      | vmap ys =>
        exact compare_nil_iff_of_scalar G p _ _ (by simp [compareValue]) (by simp [veq])
    | vnull =>
      cases b <;>
        exact compare_nil_iff_of_scalar G p _ _ (by simp [compareValue]) (by simp [veq])
    | vbool xb =>
      cases b <;>
        exact compare_nil_iff_of_scalar G p _ _ (by simp [compareValue]) (by simp [veq])
    | vnum xn =>
      cases b <;>
        exact compare_nil_iff_of_scalar G p _ _ (by simp [compareValue]) (by simp [veq])
    | vtext xt =>
      cases b <;>
        exact compare_nil_iff_of_scalar G p _ _ (by simp [compareValue]) (by simp [veq])

theorem compare_nil_iff (G : Groups) (p : DPath) (a b : Value) :
    compareValue G p a b = [] ↔ veq G a b = true :=
  compare_nil_iff_veq G (sizeOf a + sizeOf b + 1) a b (by omega) p

/-- Claim C5: reflexivity: comparing any well-formed value (all mappings in
the tree have distinct keys) with itself, at any path, yields an empty
DiffResult. -/
theorem C5_reflexivity (x : Value) (p : DPath) (hwf : wfB x = true) :
    compareValue defaultGroups p x x = [] :=
  (compare_nil_iff defaultGroups p x x).mpr (veq_refl defaultGroups x hwf)

/-- Witness for C5 at a concrete nested value. -/
theorem C5_reflexivity_witness :
    compareValue defaultGroups []
      (.vmap [("a", .vnum 1), ("b", .vseq [.vnum 2, .vtext "x"]),
              ("c", .vmap [("d", .vbool true)])])
      (.vmap [("a", .vnum 1), ("b", .vseq [.vnum 2, .vtext "x"]),
              ("c", .vmap [("d", .vbool true)])]) = [] :=
  C5_reflexivity _ []
    (by simp [wfB, nodupKeysB, wfMapB, wfListB, hasKey])

/-! ### Permutations compare empty -/

theorem perm_greedy_full (G : Groups) (xs ys : List Value)
    (hwf : ∀ x ∈ xs, wfB x = true) (hperm : xs.Perm ys) :
    greedy (veq G) xs ys = ([], []) := by
  have hwys : ∀ y ∈ ys, wfB y = true := fun y hy =>
    hwf y (hperm.mem_iff.mpr hy)
  have hrel0 : Multiset.Rel (fun a b => veq G a b = true) (↑xs) (↑xs) :=
    rel_refl_W (veq G) xs (fun x hx => veq_refl G x (hwf x hx))
  have hcoe : (↑xs : Multiset Value) = ↑ys := Multiset.coe_eq_coe.mpr hperm
  have hrel : Multiset.Rel (fun a b => veq G a b = true) (↑xs) (↑ys) := by
    rw [← hcoe]
    exact hrel0
  exact greedy_full_of_rel (veq G) (fun v => wfB v = true)
    (fun a b ha hb => veq_symm G a b ha hb)
    (fun a b c ha hb hc hab hbc => veq_trans G a b c ha hb hc hab hbc)
    xs ys hwf hwys hrel

/-- Claim C4: sequences are compared order-insensitively: for any two
sequences of well-formed elements that are permutations of each other, the
comparison yields an empty DiffResult; in particular comparing
{"items": [1,2,3]} with {"items": [3,1,2]} is empty. -/
theorem C4_order_insensitive_sequences :
    (∀ (p : DPath) (xs ys : List Value), (∀ x ∈ xs, wfB x = true) →
      xs.Perm ys → compareValue defaultGroups p (.vseq xs) (.vseq ys) = []) ∧
    compareValue defaultGroups []
      (.vmap [("items", .vseq [.vnum 1, .vnum 2, .vnum 3])])
      (.vmap [("items", .vseq [.vnum 3, .vnum 1, .vnum 2])]) = [] := by
  constructor
  · intro p xs ys hwf hperm
    rw [compare_nil_iff, veq, veqSeq_iff_greedy]
    exact perm_greedy_full defaultGroups xs ys hwf hperm
  · simp [compareValue, compareCommon, removedKeys, addedKeys, lookupV, hasKey,
      greedy, removeFirst, veq, scalarEqual, tagOf, inCommonGroup, defaultGroups,
      canonScalar, canonInt, canonNat, natDigits, natDigitsAux, Nat.digitChar]

/-- Witness for C4 at a concrete permutation. -/
theorem C4_order_insensitive_sequences_witness :
    compareValue defaultGroups [] (.vseq [.vnum 1, .vnum 2])
      (.vseq [.vnum 2, .vnum 1]) = [] :=
  C4_order_insensitive_sequences.1 [] _ _
    (by
      intro x hx
      rcases List.mem_cons.mp hx with rfl | hx
      · simp [wfB]
      · rcases List.mem_cons.mp hx with rfl | hx
        · simp [wfB]
        · simp at hx)
    (List.Perm.swap _ _ _)

/-! ### Swapping the two sides of a comparison -/

theorem swapEntry_involutive (e : DiffEntry) : swapEntry (swapEntry e) = e := by
  cases e <;> rfl

theorem mem_map_swapEntry {e : DiffEntry} {l : List DiffEntry} :
    e ∈ l.map swapEntry ↔ swapEntry e ∈ l := by
  rw [List.mem_map]
  constructor
  · rintro ⟨e', he', rfl⟩
    rw [swapEntry_involutive]
    exact he'
  · intro h
    exact ⟨swapEntry e, h, swapEntry_involutive e⟩

theorem removedKeys_swap (p : DPath) (xs ys : List (String × Value)) :
    removedKeys p ys xs = (addedKeys p xs ys).map swapEntry := by
  rw [removedKeys, addedKeys, List.map_filterMap]
  apply List.filterMap_congr
  intro kv _
  by_cases h : hasKey kv.1 xs = true <;> simp [h, swapEntry]

theorem addedKeys_swap (p : DPath) (xs ys : List (String × Value)) :
    addedKeys p ys xs = (removedKeys p xs ys).map swapEntry := by
  rw [removedKeys, addedKeys, List.map_filterMap]
  apply List.filterMap_congr
  intro kv _
  by_cases h : hasKey kv.1 ys = true <;> simp [h, swapEntry]

theorem compareCommon_eq_flatMap (G : Groups) (p : DPath) :
    ∀ (xs ys : List (String × Value)),
      compareCommon G p xs ys = xs.flatMap (fun kv =>
        match lookupV kv.1 ys with
        | some w => compareValue G (p ++ [kv.1]) kv.2 w
        | none => []) := by
  intro xs ys
  induction xs with
  | nil => simp [compareCommon]
  | cons kv rest ih =>
    obtain ⟨k, v⟩ := kv
    rw [compareCommon, ih, List.flatMap_cons]

theorem flatMap_perm_congr {α β : Type _} (l : List α) (f g : α → List β)
    (h : ∀ a ∈ l, (f a).Perm (g a)) : (l.flatMap f).Perm (l.flatMap g) := by
  induction l with
  | nil => simp
  | cons a l ih =>
    simp only [List.flatMap_cons]
    exact (h a (by simp)).append (ih (fun a' ha' => h a' (by simp [ha'])))

theorem flatMap_eq_filter {α β : Type _} (l : List α) (q : α → Bool)
    (f : α → List β) (h : ∀ a ∈ l, q a = false → f a = []) :
    l.flatMap f = (l.filter q).flatMap f := by
  induction l with
  | nil => simp
  | cons a l ih =>
    by_cases hq : q a = true
    · simp only [List.flatMap_cons, List.filter_cons, hq, if_true]
      rw [ih (fun a' ha' => h a' (by simp [ha']))]
    · simp only [Bool.not_eq_true] at hq
      simp only [List.flatMap_cons, List.filter_cons, hq]
      rw [h a (by simp) hq, ih (fun a' ha' => h a' (by simp [ha']))]
      simp

theorem hasKey_iff_mem_fst {k : String} {xs : List (String × Value)} :
    hasKey k xs = true ↔ k ∈ xs.map Prod.fst := by
  simp only [hasKey, List.any_eq_true, List.mem_map]
  constructor
  · rintro ⟨kv, hkv, he⟩
    exact ⟨kv, hkv, by simpa using he⟩
  · rintro ⟨kv, hkv, he⟩
    exact ⟨kv, hkv, by simp [he]⟩

theorem nodupKeys_map_fst : ∀ {xs : List (String × Value)},
    nodupKeysB xs = true → (xs.map Prod.fst).Nodup := by
  intro xs
  induction xs with
  | nil => simp
  | cons kv rest ih =>
    obtain ⟨k, v⟩ := kv
    intro h
    simp only [nodupKeysB, Bool.and_eq_true, Bool.not_eq_true'] at h
    simp only [List.map_cons, List.nodup_cons]
    refine ⟨?_, ih h.2⟩
    intro hmem
    rw [← hasKey_iff_mem_fst] at hmem
    rw [h.1] at hmem
    cases hmem

theorem lookupV_eq_none_of_not_hasKey {k : String} {xs : List (String × Value)}
    (h : hasKey k xs = false) : lookupV k xs = none := by
  cases hl : lookupV k xs with
  | none => rfl
  | some v =>
    have := hasKey_iff_lookupV.mpr ⟨v, hl⟩
    rw [h] at this
    cases this

theorem compareCommon_swap_perm (G : Groups) (p : DPath)
    (xs ys : List (String × Value))
    (hndx : nodupKeysB xs = true) (hndy : nodupKeysB ys = true)
    (ihp : ∀ (k : String) (v w : Value), lookupV k xs = some v →
      lookupV k ys = some w →
      (compareValue G (p ++ [k]) w v).Perm
        ((compareValue G (p ++ [k]) v w).map swapEntry)) :
    (compareCommon G p ys xs).Perm ((compareCommon G p xs ys).map swapEntry) := by
  set F : String → List DiffEntry := fun k =>
    match lookupV k xs, lookupV k ys with
    | some v, some w => (compareValue G (p ++ [k]) v w).map swapEntry
    | _, _ => [] with hF
  set Gf : String → List DiffEntry := fun k =>
    match lookupV k ys, lookupV k xs with
    | some w, some v => compareValue G (p ++ [k]) w v
    | _, _ => [] with hGf
  set q : String → Bool := fun k => hasKey k xs && hasKey k ys with hqdef
  have stepA : (compareCommon G p xs ys).map swapEntry =
      (xs.map Prod.fst).flatMap F := by
    rw [compareCommon_eq_flatMap, List.map_flatMap, List.flatMap_map]
    apply List.flatMap_congr
    intro kv hkv
    have hlk : lookupV kv.1 xs = some kv.2 :=
      lookupV_of_mem_nodup hndx (by simpa using hkv)
    simp only [hF, Function.comp_apply, hlk]
    cases hl : lookupV kv.1 ys <;> simp
  have stepB : compareCommon G p ys xs = (ys.map Prod.fst).flatMap Gf := by
    rw [compareCommon_eq_flatMap, List.flatMap_map]
    apply List.flatMap_congr
    intro kv hkv
    have hlk : lookupV kv.1 ys = some kv.2 :=
      lookupV_of_mem_nodup hndy (by simpa using hkv)
    simp only [hGf, Function.comp_apply, hlk]
    cases hl : lookupV kv.1 xs <;> simp
  have stepC : ∀ k, (Gf k).Perm (F k) := by
    intro k
    simp only [hF, hGf]
    cases h1 : lookupV k xs with
    | none => cases h2 : lookupV k ys <;> simp
    | some v =>
      cases h2 : lookupV k ys with
      | none => simp
      | some w => exact ihp k v w h1 h2
  have hqF : ∀ k, q k = false → F k = [] := by
    intro k hk
    have hk' : hasKey k xs = false ∨ hasKey k ys = false := by
      rw [hqdef] at hk
      cases hx : hasKey k xs <;> cases hy : hasKey k ys <;> simp_all
    simp only [hF]
    rcases hk' with hk' | hk'
    · rw [lookupV_eq_none_of_not_hasKey hk']
    · rw [lookupV_eq_none_of_not_hasKey hk']
      cases lookupV k xs <;> rfl
  have keysPerm : ((ys.map Prod.fst).filter q).Perm ((xs.map Prod.fst).filter q) := by
    rw [List.perm_ext_iff_of_nodup (List.Nodup.filter _ (nodupKeys_map_fst hndy))
      (List.Nodup.filter _ (nodupKeys_map_fst hndx))]
    intro k
    simp only [List.mem_filter]
    constructor
    · rintro ⟨_, hqk⟩
      have h2 : hasKey k xs = true := by
        rw [hqdef] at hqk
        exact (Bool.and_eq_true _ _ |>.mp hqk).1
      exact ⟨hasKey_iff_mem_fst.mp h2, hqk⟩
    · rintro ⟨_, hqk⟩
      have h2 : hasKey k ys = true := by
        rw [hqdef] at hqk
        exact (Bool.and_eq_true _ _ |>.mp hqk).2
      exact ⟨hasKey_iff_mem_fst.mp h2, hqk⟩
  rw [stepB, stepA]
  refine (flatMap_perm_congr _ _ _ (fun k _ => stepC k)).trans ?_
  rw [flatMap_eq_filter (ys.map Prod.fst) q F (fun k _ h => hqF k h),
    flatMap_eq_filter (xs.map Prod.fst) q F (fun k _ h => hqF k h)]
  exact List.Perm.flatMap_right F keysPerm

theorem compare_swap_scalar (G : Groups) (p : DPath) (a b : Value)
    (h1 : compareValue G p a b =
      (if scalarEqual G a b then [] else [.changed p a b]))
    (h2 : compareValue G p b a =
      (if scalarEqual G b a then [] else [.changed p b a])) :
    (compareValue G p b a).Perm ((compareValue G p a b).map swapEntry) := by
  rw [h1, h2, scalarEqual_symm G b a]
  by_cases hs : scalarEqual G a b = true <;> simp [hs, swapEntry]

theorem compare_swap_aux (G : Groups) :
    ∀ (n : Nat) (a b : Value), sizeOf a + sizeOf b < n →
      wfB a = true → wfB b = true → ∀ (p : DPath),
      (compareValue G p b a).Perm ((compareValue G p a b).map swapEntry) := by
  intro n
  induction n with
  | zero => intro a b h; omega
  | succ n ih =>
    intro a b hab hwa hwb p
    cases a with
    | vmap xs =>
      cases b with
      | vmap ys =>
        obtain ⟨hndx, hmx⟩ := wfB_vmap_iff.mp hwa
        obtain ⟨hndy, hmy⟩ := wfB_vmap_iff.mp hwb
        rw [compareValue, compareValue]
        simp only [List.map_append]
        rw [removedKeys_swap p xs ys, addedKeys_swap p xs ys]
        have hcommon := compareCommon_swap_perm G p xs ys hndx hndy (by
          intro k v w hlv hlw
          have hv := lookupV_mem hlv
          have hw := lookupV_mem hlw
          have s1 := sizeOf_mem_vmap hv
          have s2 := sizeOf_mem_vmap hw
          simp only at s1 s2
          exact ih v w (by omega) (hmx (k, v) hv) (hmy (k, w) hw) (p ++ [k]))
        rw [List.append_assoc, List.append_assoc]
        exact hcommon.append List.perm_append_comm
      | vnull =>
        exact compare_swap_scalar G p _ _ (by simp [compareValue]) (by simp [compareValue])
      | vbool xb =>
        exact compare_swap_scalar G p _ _ (by simp [compareValue]) (by simp [compareValue])
      | vnum xn =>
        exact compare_swap_scalar G p _ _ (by simp [compareValue]) (by simp [compareValue])
      | vtext xt =>
        exact compare_swap_scalar G p _ _ (by simp [compareValue]) (by simp [compareValue])
      | vseq m =>
        exact compare_swap_scalar G p _ _ (by simp [compareValue]) (by simp [compareValue])
    | vseq l =>
      cases b with
      | vseq m =>
        have hsym : ∀ x ∈ l, ∀ y ∈ m, veq G x y = veq G y x := by
          intro x hx y hy
          exact veq_symm G x y (wfB_vseq_iff.mp hwa x hx) (wfB_vseq_iff.mp hwb y hy)
        have hswap := greedy_swap (veq G) l m hsym
        rw [compareValue, compareValue, hswap]
        simp only [List.map_append, List.map_map]
        have e1 : (swapEntry ∘ fun v => DiffEntry.removedListItem p v) =
            (fun v => DiffEntry.addedListItem p v) := by
          funext v; rfl
        have e2 : (swapEntry ∘ fun v => DiffEntry.addedListItem p v) =
            (fun v => DiffEntry.removedListItem p v) := by
          funext v; rfl
        rw [e1, e2]
        exact List.perm_append_comm
      | vnull =>
        exact compare_swap_scalar G p _ _ (by simp [compareValue]) (by simp [compareValue])
      | vbool xb =>
        exact compare_swap_scalar G p _ _ (by simp [compareValue]) (by simp [compareValue])
      | vnum xn =>
        exact compare_swap_scalar G p _ _ (by simp [compareValue]) (by simp [compareValue])
      | vtext xt =>
        exact compare_swap_scalar G p _ _ (by simp [compareValue]) (by simp [compareValue])
      | vmap ys =>
        exact compare_swap_scalar G p _ _ (by simp [compareValue]) (by simp [compareValue])
    | vnull =>
      cases b <;>
        exact compare_swap_scalar G p _ _ (by simp [compareValue]) (by simp [compareValue])
    | vbool xb =>
      cases b <;>
        exact compare_swap_scalar G p _ _ (by simp [compareValue]) (by simp [compareValue])
    | vnum xn =>
      cases b <;>
        exact compare_swap_scalar G p _ _ (by simp [compareValue]) (by simp [compareValue])
    | vtext xt =>
      cases b <;>
        exact compare_swap_scalar G p _ _ (by simp [compareValue]) (by simp [compareValue])

theorem compare_swap (G : Groups) (a b : Value) (hwa : wfB a = true)
    (hwb : wfB b = true) (p : DPath) :
    (compareValue G p b a).Perm ((compareValue G p a b).map swapEntry) :=
  compare_swap_aux G (sizeOf a + sizeOf b + 1) a b (by omega) hwa hwb p

/-- Claim C6: symmetry of classification for well-formed values: the entries
of compare(b, a) are, up to order, exactly the role-swapped entries of
compare(a, b); in particular a Changed entry with old o and new n at path P
in compare(a, b) corresponds to a Changed entry with old n and new o at P in
compare(b, a), and the AddedKey/RemovedKey and AddedListItem/RemovedListItem
buckets swap roles. -/
theorem C6_symmetry_of_classification :
    ∀ (a b : Value) (p : DPath), wfB a = true → wfB b = true →
      (compareValue defaultGroups p b a).Perm
        ((compareValue defaultGroups p a b).map swapEntry) ∧
      (∀ (P : DPath) (o n : Value),
        DiffEntry.changed P o n ∈ compareValue defaultGroups p a b ↔
        DiffEntry.changed P n o ∈ compareValue defaultGroups p b a) ∧
      (∀ (P : DPath) (v : Value),
        (DiffEntry.removedKey P v ∈ compareValue defaultGroups p a b ↔
         DiffEntry.addedKey P v ∈ compareValue defaultGroups p b a) ∧
        (DiffEntry.addedKey P v ∈ compareValue defaultGroups p a b ↔
         DiffEntry.removedKey P v ∈ compareValue defaultGroups p b a) ∧
        (DiffEntry.removedListItem P v ∈ compareValue defaultGroups p a b ↔
         DiffEntry.addedListItem P v ∈ compareValue defaultGroups p b a) ∧
        (DiffEntry.addedListItem P v ∈ compareValue defaultGroups p a b ↔
         DiffEntry.removedListItem P v ∈ compareValue defaultGroups p b a)) := by
  intro a b p hwa hwb
  have hperm := compare_swap defaultGroups a b hwa hwb p
  have hmem : ∀ (e : DiffEntry),
      e ∈ compareValue defaultGroups p b a ↔
      swapEntry e ∈ compareValue defaultGroups p a b := by
    intro e
    rw [hperm.mem_iff, mem_map_swapEntry]
  refine ⟨hperm, ?_, ?_⟩
  · intro P o n
    rw [hmem (.changed P n o)]
    rfl
  · intro P v
    refine ⟨?_, ?_, ?_, ?_⟩
    · rw [hmem (.addedKey P v)]
      rfl
    · rw [hmem (.removedKey P v)]
      rfl
    · rw [hmem (.addedListItem P v)]
      rfl
    · rw [hmem (.removedListItem P v)]
      rfl

/-- Witness for C6 at concrete values: the swap permutation at a pair of
small mappings. -/
theorem C6_symmetry_of_classification_witness :
    (compareValue defaultGroups [] (.vmap []) (.vmap [("a", .vnum 1)])).Perm
      ((compareValue defaultGroups [] (.vmap [("a", .vnum 1)]) (.vmap [])).map
        swapEntry) :=
  (C6_symmetry_of_classification (.vmap [("a", .vnum 1)]) (.vmap []) []
    (by simp [wfB, nodupKeysB, wfMapB, hasKey]) (by simp [wfB, nodupKeysB, wfMapB])).1
